import Mathlib

/-
Verification of the SQL-backed atom storage engine
(src/opencog/persist/sql/multi-driver/SQLAtomStorage.cc).

The development shallowly embeds the persistence engine: SQL tables become
association lists, the driver becomes explicit state passing, and the
recursive value codec becomes structural recursion.  Each claim about the
engine is stated and settled against these embedded definitions.
-/

namespace AtomStorage

/-! Value data model.

A Value is a FloatVector, a StringVector, or a LinkVector of nested
Values (FloatValue / StringValue / LinkValue in the source).  Doubles are
embedded as rationals.  -/


inductive PValue where
  | fv : List Rat → PValue
  | sv : List String → PValue
  | lv : List PValue → PValue

mutual

def decEqPValue : (a b : PValue) → Decidable (a = b)
  | PValue.fv x, PValue.fv y =>
    match decEq x y with
    | isTrue h => isTrue (by rw [h])
    | isFalse h => isFalse (by intro hh; cases hh; exact h rfl)
  | PValue.fv _, PValue.sv _ => isFalse (by intro h; cases h)
  | PValue.fv _, PValue.lv _ => isFalse (by intro h; cases h)
  | PValue.sv _, PValue.fv _ => isFalse (by intro h; cases h)
  | PValue.sv x, PValue.sv y =>
    match decEq x y with
    | isTrue h => isTrue (by rw [h])
    | isFalse h => isFalse (by intro hh; cases hh; exact h rfl)
  | PValue.sv _, PValue.lv _ => isFalse (by intro h; cases h)
  | PValue.lv _, PValue.fv _ => isFalse (by intro h; cases h)
  | PValue.lv _, PValue.sv _ => isFalse (by intro h; cases h)
  | PValue.lv x, PValue.lv y =>
    match decEqPValueList x y with
    | isTrue h => isTrue (by rw [h])
    | isFalse h => isFalse (by intro hh; cases hh; exact h rfl)

def decEqPValueList : (a b : List PValue) → Decidable (a = b)
  | [], [] => isTrue rfl
  | [], _ :: _ => isFalse (by intro h; cases h)
  | _ :: _, [] => isFalse (by intro h; cases h)
  | a :: as, b :: bs =>
    match decEqPValue a b, decEqPValueList as bs with
    | isTrue h1, isTrue h2 => isTrue (by rw [h1, h2])
    | isFalse h1, _ => isFalse (by intro hh; cases hh; exact h1 rfl)
    | isTrue _, isFalse h2 => isFalse (by intro hh; cases hh; exact h2 rfl)

end

instance : DecidableEq PValue := decEqPValue

instance : DecidableEq (List PValue) := decEqPValueList

/-- The value-type tag stored in the `type` column of the Values and
Valuations tables (FLOAT_VALUE / STRING_VALUE / LINK_VALUE). -/
inductive VKind where
  | flo : VKind
  | str : VKind
  | lnk : VKind
deriving DecidableEq

/-- One row of the Values (or Valuations) table: the type tag plus the
three payload columns floatvalue, stringvalue, linkvalue.  Only the column
matching the tag is meaningful; the others are empty. -/
structure VRow where
  kind : VKind
  fpay : List Rat
  spay : List String
  lpay : List Nat
deriving DecidableEq

/-- The Values table: vuid BIGINT PRIMARY KEY plus the row columns. -/
abbrev ValTable := List (Nat × VRow)

/-- SELECT * FROM Values WHERE vuid = v (first matching row). -/
def vlookup (s : ValTable) (v : Nat) : Option VRow :=
  match s with
  | [] => none
  | p :: rest => if p.1 = v then some p.2 else vlookup rest v

/-- DELETE FROM Values WHERE vuid = v. -/
def vremove (s : ValTable) (v : Nat) : ValTable :=
  s.filter (fun p => p.1 ≠ v)

/-- The mutable state of the value store: the global `_next_valid` counter
and the Values table. -/
structure VState where
  next : Nat
  values : ValTable
deriving DecidableEq

/-! Storing values.

SQLAtomStorage::storeValue allocates `vuid = _next_valid++` first and then
composes the INSERT; for a LinkValue, link_to_string recursively stores
each member value (each obtaining a later vuid) before the parent row is
written.  -/

mutual

def storeValue : PValue → VState → Nat × VState
  | PValue.fv ds, st =>
    (st.next, ⟨st.next + 1, (st.next, ⟨VKind.flo, ds, [], []⟩) :: st.values⟩)
  | PValue.sv ss, st =>
    (st.next, ⟨st.next + 1, (st.next, ⟨VKind.str, [], ss, []⟩) :: st.values⟩)
  | PValue.lv vs, st =>
    let p := storeValueList vs ⟨st.next + 1, st.values⟩
    (st.next, ⟨p.2.next, (st.next, ⟨VKind.lnk, [], [], p.1⟩) :: p.2.values⟩)

/-- The loop inside link_to_string: store each member value in order,
collecting the vuids that the row's linkvalue column will reference. -/
def storeValueList : List PValue → VState → List Nat × VState
  | [], st => ([], st)
  | v :: vs, st =>
    let p := storeValue v st
    let q := storeValueList vs p.2
    (p.1 :: q.1, q.2)

end

/-- Compose the row for a value the way storeValuation does: the payload
columns are built by float_to_string / string_to_string / link_to_string,
and only link_to_string touches the store (it stores the member values).
The row keeps the structured payload whose text rendering the program
writes; the rendering itself is lossy (no quoting, six fractional
digits), which the fetch side models via doUnpackValueF / roundP. -/
def encodeVal : PValue → VState → VRow × VState
  | PValue.fv ds, st => (⟨VKind.flo, ds, [], []⟩, st)
  | PValue.sv ss, st => (⟨VKind.str, [], ss, []⟩, st)
  | PValue.lv vs, st =>
    let p := storeValueList vs st
    (⟨VKind.lnk, [], [], p.1⟩, p.2)

/-! Fetching values.

SQLAtomStorage::getValue issues a SELECT by vuid and doUnpackValue
rebuilds the value, recursively fetching each vuid of a linkvalue column.
The C++ recursion has no explicit bound; the embedding uses fuel, and the
theorems show the fuel suffices on well-formed tables.  -/

mutual

/-- The payload-transparent skeleton of doUnpackValue: it hands the
structured payload columns back verbatim and recurses through linkvalue
members (fuel bounds the recursive fetches).  The program re-reads TEXT
columns and re-parses them, so a real fetch applies the lossy float and
string codec once per leaf; doUnpackValueF below adds that re-parse.
decodeRow is adequate for the vuid-structure claims only. -/
def decodeRow : Nat → ValTable → VRow → Option PValue
  | fuel, s, r =>
    match r.kind with
    | VKind.flo => some (PValue.fv r.fpay)
    | VKind.str => some (PValue.sv r.spay)
    | VKind.lnk =>
      match decodeList fuel s r.lpay with
      | none => none
      | some vs => some (PValue.lv vs)
termination_by fuel s r => (fuel, 3 + r.lpay.length)

/-- The loop in doUnpackValue over a linkvalue column: fetch each vuid in
order; a missing row aborts the whole fetch (the source throws). -/
def decodeList : Nat → ValTable → List Nat → Option (List PValue)
  | _, _, [] => some []
  | fuel, s, u :: us =>
    match getValueF fuel s u with
    | none => none
    | some v =>
      match decodeList fuel s us with
      | none => none
      | some vs => some (v :: vs)
termination_by fuel s us => (fuel, 2 + us.length)

/-- getValue: SELECT the row by vuid, then unpack it. -/
def getValueF : Nat → ValTable → Nat → Option PValue
  | 0, _, _ => none
  | fuel + 1, s, u =>
    match vlookup s u with
    | none => none
    | some r => decodeRow fuel s r
termination_by fuel s u => (fuel, 0)

end

/-! Deleting values.

SQLAtomStorage::deleteValue selects the row, recursively deletes every
vuid referenced by a linkvalue column, and then deletes the row itself.
Fuel bounds the recursion; on well-formed tables (children allocated after
their parent) the default fuel is shown to suffice.  -/

mutual

def delValF : Nat → ValTable → Nat → ValTable
  | 0, s, _ => s
  | fuel + 1, s, v =>
    match vlookup s v with
    | some r =>
      if r.kind = VKind.lnk then vremove (delListF fuel s r.lpay) v
      else vremove s v
    | none => vremove s v
termination_by fuel s v => (fuel, 0)

def delListF : Nat → ValTable → List Nat → ValTable
  | _, s, [] => s
  | fuel, s, w :: ws => delListF fuel (delValF fuel s w) ws
termination_by fuel s ws => (fuel, 1 + ws.length)

end

/-- deleteValue with the fuel that suffices on well-formed tables: the
recursion can visit each row at most once. -/
def deleteValue (s : ValTable) (v : Nat) : ValTable :=
  delValF (s.length + 1) s v

/-- The number of table rows whose vuid is at least v: the measure that
bounds the recursion depth of deleteValue below v's row count. -/
def msr (s : ValTable) (v : Nat) : Nat :=
  (s.filter (fun p => decide (v ≤ p.1))).length

/-! Well-formedness of the value store. -/

/-- Every row's vuid is below the `_next_valid` counter. -/
def Bounded (st : VState) : Prop :=
  ∀ p ∈ st.values, p.1 < st.next

/-- The vuid column is a primary key: no duplicate keys. -/
def KeysNodup (s : ValTable) : Prop :=
  (s.map (fun p => p.1)).Nodup

/-- Every linkvalue reference points to a vuid allocated strictly after
the referencing row's own vuid. -/
def Increasing (s : ValTable) : Prop :=
  ∀ p ∈ s, p.2.kind = VKind.lnk → ∀ w ∈ p.2.lpay, p.1 < w

def WFv (st : VState) : Prop :=
  Bounded st ∧ KeysNodup st.values ∧ Increasing st.values

/-- Reachability through linkvalue references, the relation that the
cascading delete is claimed to erase exactly. -/
inductive Reaches (s : ValTable) : Nat → Nat → Prop
  | refl (v : Nat) : Reaches s v v
  | step {v w x : Nat} (r : VRow) : vlookup s v = some r →
      r.kind = VKind.lnk → w ∈ r.lpay → Reaches s w x → Reaches s v x

/-! Node counts and fuel requirements of values. -/

mutual

def nodesP : PValue → Nat
  | PValue.fv _ => 1
  | PValue.sv _ => 1
  | PValue.lv vs => 1 + nodesL vs

def nodesL : List PValue → Nat
  | [] => 0
  | v :: vs => nodesP v + nodesL vs

end

mutual

/-- Fuel needed by decodeRow to unpack the row of a value. -/
def needP : PValue → Nat
  | PValue.fv _ => 0
  | PValue.sv _ => 0
  | PValue.lv vs => needL vs

/-- Fuel needed by getValueF on every member of a stored list (each member
costs its own need plus one lookup level). -/
def needL : List PValue → Nat
  | [] => 0
  | v :: vs => max (needP v + 1) (needL vs)

end

/-- The number of Values rows that encoding a value as a valuation row
creates: the members of a LinkValue, and nothing for the flat kinds. -/
def nodesChildren : PValue → Nat
  | PValue.fv _ => 0
  | PValue.sv _ => 0
  | PValue.lv vs => nodesL vs

/-! Valuations.

A Valuation row keys a value by the (key uuid, atom uuid) pair, with
UNIQUE(key, atom).  storeValuation runs BEGIN, deleteValuation (which
cascades deleteValue through an old linkvalue row), a fresh INSERT, and
COMMIT.  -/

/-- The SQL statements issued by the valuation-store path, by kind. -/
inductive VStmt where
  | begin : VStmt
  | commit : VStmt
  | selectPair : VStmt
  | deleteValues : VStmt
  | deletePair : VStmt
  | insertPair : VStmt
deriving DecidableEq

/-- The database state seen by the valuation code: the value-store state
plus the Valuations table. -/
structure DBState where
  next : Nat
  values : ValTable
  valns : List ((Nat × Nat) × VRow)
deriving DecidableEq

/-- The loop in deleteValuation over an old linkvalue column: each
referenced vuid is deleted from Values by an independent deleteValue. -/
def delListTop : ValTable → List Nat → ValTable
  | s, [] => s
  | s, w :: ws => delListTop (deleteValue s w) ws

/-- SELECT * FROM Valuations WHERE key = k AND atom = a. -/
def findValuation (q : List ((Nat × Nat) × VRow)) (k a : Nat) : Option VRow :=
  match q with
  | [] => none
  | p :: rest => if p.1 = (k, a) then some p.2 else findValuation rest k a

/-- deleteValuation: select the pair's row; if it is a LinkValue,
recursively delete the referenced vuids from Values; if a row existed,
delete it.  The returned list is the trace of issued statement kinds. -/
def deleteValuationT (db : DBState) (k a : Nat) : DBState × List VStmt :=
  match findValuation db.valns k a with
  | none => (db, [VStmt.selectPair])
  | some r =>
    let values' := if r.kind = VKind.lnk then delListTop db.values r.lpay else db.values
    (⟨db.next, values', db.valns.filter (fun p => p.1 ≠ (k, a))⟩,
      [VStmt.selectPair]
        ++ (if r.kind = VKind.lnk then r.lpay.map (fun _ => VStmt.deleteValues) else [])
        ++ [VStmt.deletePair])

/-- storeValuation: BEGIN; deleteValuation; compose the new row (storing
linkvalue members into Values); INSERT; COMMIT. -/
def storeValuationT (k a : Nat) (v : PValue) (db : DBState) : DBState × List VStmt :=
  let d := deleteValuationT db k a
  let p := encodeVal v ⟨d.1.next, d.1.values⟩
  (⟨p.2.next, p.2.values, ((k, a), p.1) :: d.1.valns⟩,
    [VStmt.begin] ++ d.2 ++ [VStmt.insertPair, VStmt.commit])

def storeValuation (k a : Nat) (v : PValue) (db : DBState) : DBState :=
  (storeValuationT k a v db).1

def WFdb (db : DBState) : Prop :=
  WFv ⟨db.next, db.values⟩

/-! String-vector codec (string_to_string and the STRING_VALUE branch of
doUnpackValue).  Characters that the C code treats specially are named to
keep them out of string literals. -/

def lbrace : Char := Char.ofNat 123

def rbrace : Char := Char.ofNat 125

def dquote : Char := Char.ofNat 34

/-- string_to_string: open with a single quote and a left brace, append
the elements separated by a comma and a space with NO quoting or escaping
of the element text, close with a right brace and a single quote. -/
def string_to_string (l : List String) : String :=
  (l.foldl (fun acc v => (true, acc.2 ++ (if acc.1 then ", " else "") ++ v))
      (false, "'\x7b")).2 ++ "\x7d'"

/-- The text the driver hands back for a stored literal: the content
between the outer single quotes. -/
def sqlContent (s : String) : String :=
  (s.drop 1).dropRight 1

/-- strchr up to the first occurrence of sep: the text before it and the
text after it, or none when sep does not occur. -/
def splitAtFirst (sep : Char) : List Char → Option (List Char × List Char)
  | [] => none
  | c :: cs =>
    if c = sep then some ([], cs)
    else
      match splitAtFirst sep cs with
      | none => none
      | some p => some (c :: p.1, p.2)

/-- The quote stripping of the STRING_VALUE loop: drop one leading double
quote from the element, then one trailing double quote. -/
def chompElem (e : List Char) : List Char :=
  let e1 := if e.head? = some dquote then e.tail else e
  if e1.getLast? = some dquote then e1.dropLast else e1

def chompLead (e : List Char) : List Char :=
  if e.head? = some dquote then e.tail else e

/-- The STRING_VALUE loop of doUnpackValue: stop at a closing brace or end
of text; otherwise the element runs to the first comma anywhere in the
rest, else to the first closing brace; strip one pair of quotes and
continue after the terminator.  Fuel bounds the loop (one unit per
element suffices). -/
def parseElems : Nat → List Char → List (List Char)
  | 0, _ => []
  | _, [] => []
  | fuel + 1, l =>
    if l.head? = some rbrace then []
    else
      match splitAtFirst ',' l with
      | some p => chompElem p.1 :: parseElems fuel p.2
      | none =>
        match splitAtFirst rbrace l with
        | some p => chompElem p.1 :: parseElems fuel p.2
        | none => [chompLead l]

/-- The STRING_VALUE branch of doUnpackValue applied to the column text:
skip one leading left brace, then run the element loop. -/
def doUnpackString (s : String) : List String :=
  let l := s.data
  (parseElems (l.length + 1) (if l.head? = some lbrace then l.tail else l)).map
    (fun e => String.mk e)

/-! Float-vector codec (float_to_string).

The source formats each double with std::to_string.  Modelled from the
spec of the C++ standard library: std::to_string(double) formats as
printf "%f": fixed point with exactly six fractional digits, the value
rounded to the nearest multiple of 10^-6 (ties to even).  Doubles are
embedded as rationals. -/

/-- Round q * 10^6 to the nearest integer, ties to even. -/
def ratRound6 (q : Rat) : Int :=
  if 1 / 2 < q * 1000000 - (Int.floor (q * 1000000) : Int) then Int.floor (q * 1000000) + 1
  else if q * 1000000 - (Int.floor (q * 1000000) : Int) < 1 / 2 then Int.floor (q * 1000000)
  else if Int.floor (q * 1000000) % 2 = 0 then Int.floor (q * 1000000)
  else Int.floor (q * 1000000) + 1

/-- Print m / 10^6 in fixed point with exactly six fractional digits. -/
def fixed6OfNat (m : Nat) : String :=
  let fs := Nat.repr (m % 1000000)
  Nat.repr (m / 1000000) ++ "." ++ String.mk (List.replicate (6 - fs.length) '0') ++ fs

/-- Modelled from the spec: std::to_string(double), i.e. printf "%f". -/
def toFixed6 (q : Rat) : String :=
  if q < 0 then "-" ++ fixed6OfNat (ratRound6 (-q)).toNat
  else fixed6OfNat (ratRound6 q).toNat

/-- float_to_string: same loop shape as string_to_string, each element
formatted by std::to_string. -/
def float_to_string (l : List Rat) : String :=
  (l.foldl (fun acc v => (true, acc.2 ++ (if acc.1 then ", " else "") ++ toFixed6 v))
      (false, "'\x7b")).2 ++ "\x7d'"

/-- The value denoted by the six-fractional-digit output for q. -/
def fixed6Val (q : Rat) : Rat :=
  (ratRound6 q : Rat) / 1000000

def commaJoin : List String → String
  | [] => ""
  | [x] => x
  | x :: y :: xs => x ++ ", " ++ commaJoin (y :: xs)

/-! The per-uuid creation protocol (maybe_create_id / add_id_to_cache /
do_store_single_atom).

local_id_cache holds the uuids known to be in the database;
id_create_cache holds the uuids whose first INSERT is in flight.  Each
whole store operation is modelled as one atomic step of a sequential
trace. -/

structure IdCaches where
  localc : List Nat
  createc : List Nat
deriving DecidableEq

inductive StmtKind where
  | ins : StmtKind
  | upd : StmtKind
deriving DecidableEq

inductive StepResult where
  | stmt : StmtKind → IdCaches → StepResult
  | blocked : StepResult
deriving DecidableEq

/-- One completed do_store_single_atom for uuid u: maybe_create_id
returns the empty lock (UPDATE) when u is in local_id_cache, waits when u
is in id_create_cache, and otherwise records u in id_create_cache and
returns the held lock (INSERT); add_id_to_cache then inserts u into
local_id_cache and erases it from id_create_cache. -/
def do_store_single (u : Nat) (c : IdCaches) : StepResult :=
  if u ∈ c.localc then StepResult.stmt StmtKind.upd c
  else if u ∈ c.createc then StepResult.blocked
  else
    StepResult.stmt StmtKind.ins
      ⟨u :: c.localc, (u :: c.createc).filter (fun x => x ≠ u)⟩

/-- A sequence of store operations, one uuid per operation, each running
do_store_single_atom to completion. -/
def storeSeq : List Nat → IdCaches → List (Nat × StmtKind) × IdCaches
  | [], c => ([], c)
  | u :: us, c =>
    match do_store_single u c with
    | StepResult.stmt k c1 =>
      let p := storeSeq us c1
      ((u, k) :: p.1, p.2)
    | StepResult.blocked => ([], c)

def insCount (u : Nat) (tr : List (Nat × StmtKind)) : Nat :=
  (tr.filter (fun p => decide (p.1 = u ∧ p.2 = StmtKind.ins))).length

def updCount (u : Nat) (tr : List (Nat × StmtKind)) : Nat :=
  (tr.filter (fun p => decide (p.1 = u ∧ p.2 = StmtKind.upd))).length

/-! Heights (get_height and the recursion of do_store_atom). -/

inductive PAtom where
  | node : String → PAtom
  | link : List PAtom → PAtom

mutual

def decEqPAtom : (a b : PAtom) → Decidable (a = b)
  | PAtom.node x, PAtom.node y =>
    match decEq x y with
    | isTrue h => isTrue (by rw [h])
    | isFalse h => isFalse (by intro hh; cases hh; exact h rfl)
  | PAtom.node _, PAtom.link _ => isFalse (by intro h; cases h)
  | PAtom.link _, PAtom.node _ => isFalse (by intro h; cases h)
  | PAtom.link x, PAtom.link y =>
    match decEqPAtomList x y with
    | isTrue h => isTrue (by rw [h])
    | isFalse h => isFalse (by intro hh; cases hh; exact h rfl)

def decEqPAtomList : (a b : List PAtom) → Decidable (a = b)
  | [], [] => isTrue rfl
  | [], _ :: _ => isFalse (by intro h; cases h)
  | _ :: _, [] => isFalse (by intro h; cases h)
  | a :: as, b :: bs =>
    match decEqPAtom a b, decEqPAtomList as bs with
    | isTrue h1, isTrue h2 => isTrue (by rw [h1, h2])
    | isFalse h1, _ => isFalse (by intro hh; cases hh; exact h1 rfl)
    | isTrue _, isFalse h2 => isFalse (by intro hh; cases hh; exact h2 rfl)

end

instance : DecidableEq PAtom := decEqPAtom

instance : DecidableEq (List PAtom) := decEqPAtomList

/-! get_height: nodes have height 0; for a link, loop over the outgoing
set keeping the largest child height, and return one more. -/
mutual

def get_height : PAtom → Nat
  | PAtom.node _ => 0
  | PAtom.link out => heightLoop out 0 + 1

def heightLoop : List PAtom → Nat → Nat
  | [], maxd => maxd
  | h :: rest, maxd =>
    heightLoop rest (if maxd < get_height h then get_height h else maxd)

end

/-! The reference definition, following the spec's words: a node has
height 0 and a link has height one more than the maximum height of its
children. -/
mutual

def refHeight : PAtom → Nat
  | PAtom.node _ => 0
  | PAtom.link out => 1 + refHeightMax out

def refHeightMax : List PAtom → Nat
  | [] => 0
  | h :: rest => max (refHeight h) (refHeightMax rest)

end

/-! do_store_atom: for a node call do_store_single_atom(h, 0); for a link
recurse into each child tracking the maximum returned height, then call
do_store_single_atom(h, max + 1).  The first component collects every
(atom, stored height) pair in store order; the second is the returned
height. -/
mutual

def do_store_atom : PAtom → List (PAtom × Nat) × Nat
  | PAtom.node s => ([(PAtom.node s, 0)], 0)
  | PAtom.link out =>
    ((storeKids out [] 0).1 ++ [(PAtom.link out, (storeKids out [] 0).2 + 1)],
      (storeKids out [] 0).2 + 1)

def storeKids : List PAtom → List (PAtom × Nat) → Nat → List (PAtom × Nat) × Nat
  | [], tr, lh => (tr, lh)
  | h :: rest, tr, lh =>
    storeKids rest (tr ++ (do_store_atom h).1)
      (if lh < (do_store_atom h).2 then (do_store_atom h).2 else lh)

end

/-! Size caps in do_store_single_atom (first-time INSERT path). -/

/-- The shape of the atom as far as the size checks see it: a node's name
(a byte sequence) or a link's arity. -/
inductive AtomShape where
  | node : List Char → AtomShape
  | link : Nat → AtomShape
deriving DecidableEq

def byteSizeOf (l : List Char) : Nat :=
  (l.map Char.utf8Size).sum

/-- The postgres dollar-quote delimiters that do_store_single_atom wraps
around a node name: a space, a dollar sign, the tag ocp, a dollar sign. -/
def dollarOpen : List Char := [' ', '$', 'o', 'c', 'p', '$']

def dollarClose : List Char := ['$', 'o', 'c', 'p', '$', ' ']

inductive StoreOutcome where
  | stored : AtomShape → StoreOutcome
  | failed : String → StoreOutcome
deriving DecidableEq

/-- The INSERT path of do_store_single_atom, reduced to its size checks:
the dollar-quoted name may not exceed 2700 bytes and a link's arity may
not exceed 330; violating either throws before any row is written. -/
def do_store_single_ins (h : AtomShape) : StoreOutcome :=
  match h with
  | AtomShape.node name =>
    let qname := dollarOpen ++ name ++ dollarClose
    if 2700 < byteSizeOf qname then
      StoreOutcome.failed "Maxiumum Node name size is 2700."
    else StoreOutcome.stored (AtomShape.node name)
  | AtomShape.link arity =>
    if 330 < arity then
      StoreOutcome.failed "Maxiumum Link size is 330."
    else StoreOutcome.stored (AtomShape.link arity)

/-! Failure handling of the Atoms INSERT/UPDATE execution
(do_store_single_atom, lines 1264..1287, with store_atomtable_id). -/

/-- Why the first execution of the composed statement failed, as seen by
the driver; the code itself never inspects the cause. -/
inductive FailCause where
  | spaceMissing : FailCause
  | otherFailure : FailCause
deriving DecidableEq

inductive DbStmt where
  | execAtoms : DbStmt
  | insertSpace : DbStmt
deriving DecidableEq

/-- store_atomtable_id: walk up the space tree; a space already in
table_id_cache stops the walk, otherwise the space is cached, the parent
chain is persisted first, and then this space's row is inserted. -/
def store_atomtable_id : List Nat → List Nat → List Nat × List DbStmt
  | cache, [] => (cache, [])
  | cache, tid :: parents =>
    if tid ∈ cache then (cache, [])
    else
      let p := store_atomtable_id (tid :: cache) parents
      (p.1, p.2 ++ [DbStmt.insertSpace])

/-- The execute-and-retry tail of do_store_single_atom: execute the
composed statement; if the response is null, persist the atom's space
chain (when the atom has one) and execute the very same statement once
more.  Returns the statement trace and the updated space cache. -/
def store_exec_phase (res1 : Option FailCause) (chain : Option (List Nat))
    (cache : List Nat) : List DbStmt × List Nat :=
  match res1 with
  | none => ([DbStmt.execAtoms], cache)
  | some _ =>
    match chain with
    | some ch =>
      let p := store_atomtable_id cache ch
      ([DbStmt.execAtoms] ++ p.2 ++ [DbStmt.execAtoms], p.1)
    | none => ([DbStmt.execAtoms, DbStmt.execAtoms], cache)

def countExec (tr : List DbStmt) : Nat :=
  (tr.filter (fun st => decide (st = DbStmt.execAtoms))).length

/-! The type-code map (setup_typemap / set_typemap).

TYPEMAP_SZ and NOTYPE live in the header, which is not part of this
source tree; modelled from the spec: the arrays are sized to 1 << 16 and
NOTYPE is the sentinel for a type name unknown to the runtime. -/

def NOTYPE : Nat := 65535

def TYPEMAP_SZ : Nat := 65536

/-- Modelled from the spec: the in-process ClassServer type registry is an
ordered list of type names; a name resolves to the position of its first
occurrence, and to NOTYPE when this runtime does not know it. -/
def getTypeFrom (s : String) : List String → Nat
  | [] => NOTYPE
  | t :: rest =>
    if t = s then 0
    else if getTypeFrom s rest = NOTYPE then NOTYPE else getTypeFrom s rest + 1

/-- Modelled from the spec: ClassServer getType. -/
def getType (names : List String) (s : String) : Nat :=
  getTypeFrom s names

/-- Modelled from the spec: ClassServer getTypeName. -/
def getTypeName (names : List String) (t : Nat) : String :=
  names.getD t ""

/-- The three typemap arrays plus the TypeCodes table contents. -/
structure TypeMapState where
  loading : Nat → Nat
  storing : Nat → Option Nat
  dbname : Nat → Option String
  rows : List (Nat × String)

def updFn {α : Type} (f : Nat → α) (i : Nat) (x : α) : Nat → α :=
  fun j => if j = i then x else f j

/-- set_typemap(dbval, tname): resolve the runtime type of tname and link
the three arrays. -/
def set_typemap (names : List String) (st : TypeMapState) (dbval : Nat)
    (tname : String) : TypeMapState :=
  let realtype := getType names tname
  ⟨updFn st.loading dbval realtype,
   updFn st.storing realtype (some dbval),
   updFn st.dbname dbval (some tname),
   st.rows⟩

/-- The arrays before any row is read: loading holds NOTYPE, storing is
unmapped, no db name is known; the TypeCodes table holds its prior rows. -/
def initTypeMap (rows0 : List (Nat × String)) : TypeMapState :=
  ⟨fun _ => NOTYPE, fun _ => none, fun _ => none, rows0⟩

/-- Phase one of setup_typemap: replay every TypeCodes row through
set_typemap. -/
def loadDbRows (names : List String) (st : TypeMapState)
    (dbrows : List (Nat × String)) : TypeMapState :=
  dbrows.foldl (fun acc row => set_typemap names acc row.1 row.2) st

/-- The fallback scan: the lowest db slot with no associated type name;
when every slot is taken the source asserts, modelled by the out-of-range
slot TYPEMAP_SZ. -/
def findFreeFrom (st : TypeMapState) : Nat → Nat → Nat
  | start, 0 => start
  | start, k + 1 => if st.dbname start = none then start else findFreeFrom st (start + 1) k

def findFreeSlot (st : TypeMapState) : Nat :=
  findFreeFrom st 0 TYPEMAP_SZ

/-- Phase two of setup_typemap, one runtime type t: if t already has a db
code, keep it; otherwise try the runtime code itself as the db code,
falling back to the lowest unused slot when that slot carries some other
name; record the mapping and INSERT it into TypeCodes. -/
def typemapStep (names : List String) (st : TypeMapState) (t : Nat) : TypeMapState :=
  match st.storing t with
  | some _ => st
  | none =>
    let tname := getTypeName names t
    let sqid := if st.dbname t ≠ none ∧ st.loading t ≠ t then findFreeSlot st else t
    let st1 := set_typemap names st sqid tname
    ⟨st1.loading, st1.storing, st1.dbname, st1.rows ++ [(sqid, tname)]⟩

/-- setup_typemap: read all TypeCodes rows, then walk every runtime type
in code order. -/
def setup_typemap (names : List String) (dbrows : List (Nat × String)) : TypeMapState :=
  (List.range names.length).foldl (typemapStep names)
    (loadDbRows names (initTypeMap dbrows) dbrows)

/-- The shape of the typemap state while phase two of setup_typemap walks
the runtime types below seven, in the reconciliation scenario whose
TypeCodes table held the single foreign row (7, Foo): codes below k carry
their own names, slot 7 still carries Foo, every other slot is free, and
exactly the runtime types below k have been inserted. -/
def MidInv (names : List String) (k : Nat) (st : TypeMapState) : Prop :=
  (∀ i, i < k → st.dbname i = some (names.getD i "")) ∧
  st.dbname 7 = some "Foo" ∧
  (∀ j, k ≤ j → j ≠ 7 → st.dbname j = none) ∧
  (∀ i, i < k → st.storing i = some i) ∧
  (∀ j, k ≤ j → j < names.length → st.storing j = none) ∧
  st.loading 7 = NOTYPE ∧
  st.rows = (7, "Foo") :: (List.range k).map (fun i => (i, names.getD i ""))

/-- What survives the rest of phase two once runtime type 7 (Bar) has
been reconciled: Foo keeps slot 7, Bar sits in slot 8, and both rows are
in TypeCodes. -/
def TailInv (st : TypeMapState) : Prop :=
  st.dbname 7 = some "Foo" ∧
  st.dbname 8 = some "Bar" ∧
  st.storing 7 = some 8 ∧
  st.loading 7 = NOTYPE ∧
  st.loading 8 = 7 ∧
  (7, "Foo") ∈ st.rows ∧
  (8, "Bar") ∈ st.rows

/-- The tail of a comma-and-space separated enumeration. -/
def tailJoin : List String → String
  | [] => ""
  | x :: xs => ", " ++ x ++ tailJoin xs

/-! The faithful fetch path.

decodeRow above returns the structured payload columns verbatim; the
program re-reads TEXT columns and re-parses them, so each fetch applies
the lossy float/string codec once per leaf.  doUnpackValueF is
doUnpackValue with that re-parse explicit: a float column written by
float_to_string from fpay reads back as the value denoted by the
six-fractional-digit rendering of each element (strtod of the printed
text, i.e. fixed6Val); a string column written by string_to_string from
spay reads back as the STRING_VALUE parse of that literal's content.
Linkvalue columns hold integer vuids, which round-trip exactly.  -/

mutual

def doUnpackValueF : Nat → ValTable → VRow → Option PValue
  | fuel, s, r =>
    match r.kind with
    | VKind.flo => some (PValue.fv (r.fpay.map fixed6Val))
    | VKind.str =>
      some (PValue.sv (doUnpackString (sqlContent (string_to_string r.spay))))
    | VKind.lnk =>
      match doUnpackListF fuel s r.lpay with
      | none => none
      | some vs => some (PValue.lv vs)
termination_by fuel s r => (fuel, 3 + r.lpay.length)

def doUnpackListF : Nat → ValTable → List Nat → Option (List PValue)
  | _, _, [] => some []
  | fuel, s, u :: us =>
    match fetchValueF fuel s u with
    | none => none
    | some v =>
      match doUnpackListF fuel s us with
      | none => none
      | some vs => some (v :: vs)
termination_by fuel s us => (fuel, 2 + us.length)

/-- getValue with the text re-parse: SELECT the row by vuid, unpack it. -/
def fetchValueF : Nat → ValTable → Nat → Option PValue
  | 0, _, _ => none
  | fuel + 1, s, u =>
    match vlookup s u with
    | none => none
    | some r => doUnpackValueF fuel s r
termination_by fuel s u => (fuel, 0)

end

/-! What one store/fetch round trip does to a value: float leaves are
rounded to six fractional digits, string leaves pass through the
unquoted rendering and the comma-splitting parse, linkvalue structure
is preserved.  -/

mutual

def roundP : PValue → PValue
  | PValue.fv ds => PValue.fv (ds.map fixed6Val)
  | PValue.sv ss => PValue.sv (doUnpackString (sqlContent (string_to_string ss)))
  | PValue.lv vs => PValue.lv (roundL vs)

def roundL : List PValue → List PValue
  | [] => []
  | v :: vs => roundP v :: roundL vs

end

/-- getValuation: select the pair's row and unpack it with the text
re-parse, recursively fetching linkvalue members from Values. -/
def getValuation (k a : Nat) (db : DBState) : Option PValue :=
  match findValuation db.valns k a with
  | none => none
  | some r => doUnpackValueF (db.values.length + 1) db.values r

/-! Theorems.  -/

/-! Claim C2.  The decoder splits the column text at every comma, and the
encoder writes the element text verbatim, so string elements containing
commas do not survive the round trip. -/

/-- Claim C2 (refuted, code bug): storing the StringValue with the single
element containing a comma produces the unquoted literal, whose decoding
returns two elements instead of the original one: decode(encode(L)) is not
L for string elements containing commas. -/
theorem claim_C2 :
    string_to_string ["a,b"] = "'\x7ba,b\x7d'" ∧
    doUnpackString (sqlContent (string_to_string ["a,b"])) = ["a", "b"] ∧
    ["a", "b"] ≠ ["a,b"] := by
  refine ⟨by decide, by decide, by decide⟩

/-! Claim C7.  The 2700-byte cap is applied to the dollar-quoted name,
which is 12 bytes longer than the name itself. -/

theorem byteSizeOf_append (a b : List Char) :
    byteSizeOf (a ++ b) = byteSizeOf a + byteSizeOf b := by
  simp [byteSizeOf]

theorem do_store_single_ins_node (name : List Char) :
    do_store_single_ins (AtomShape.node name) =
      if 2700 < byteSizeOf (dollarOpen ++ name ++ dollarClose) then
        StoreOutcome.failed "Maxiumum Node name size is 2700."
      else StoreOutcome.stored (AtomShape.node name) := rfl

theorem do_store_single_ins_link (arity : Nat) :
    do_store_single_ins (AtomShape.link arity) =
      if 330 < arity then StoreOutcome.failed "Maxiumum Link size is 330."
      else StoreOutcome.stored (AtomShape.link arity) := rfl

/-- Claim C7 (counterexample): a node name of exactly 2700 bytes does
raise the size-limit error, because the check is applied to the
dollar-quoted name of 2712 bytes. -/
theorem claim_C7_counterexample :
    byteSizeOf (List.replicate 2700 'a') = 2700 ∧
    do_store_single_ins (AtomShape.node (List.replicate 2700 'a')) =
      StoreOutcome.failed "Maxiumum Node name size is 2700." := by
  have hs : byteSizeOf (List.replicate 2700 'a') = 2700 := by
    rw [byteSizeOf, List.map_replicate]
    have h1 : Char.utf8Size 'a' = 1 := by decide
    rw [h1, List.sum_replicate, smul_eq_mul]
  refine ⟨hs, ?_⟩
  have hq : byteSizeOf (dollarOpen ++ List.replicate 2700 'a' ++ dollarClose) = 2712 := by
    rw [byteSizeOf_append, byteSizeOf_append, hs]
    have h1 : byteSizeOf dollarOpen = 6 := by decide
    have h2 : byteSizeOf dollarClose = 6 := by decide
    omega
  rw [do_store_single_ins_node, hq, if_pos (by norm_num)]

/-- Claim C7 (amended): a node name of at most 2688 bytes (2700 including
the 12 bytes of dollar-quote delimiters) stores without error; a longer
name, or a link of arity above 330, raises the fatal error and stores no
row. -/
theorem claim_C7_amended (name : List Char) (arity : Nat) :
    (byteSizeOf name ≤ 2688 →
      do_store_single_ins (AtomShape.node name) =
        StoreOutcome.stored (AtomShape.node name)) ∧
    (2688 < byteSizeOf name →
      do_store_single_ins (AtomShape.node name) =
        StoreOutcome.failed "Maxiumum Node name size is 2700.") ∧
    (arity ≤ 330 →
      do_store_single_ins (AtomShape.link arity) =
        StoreOutcome.stored (AtomShape.link arity)) ∧
    (330 < arity →
      do_store_single_ins (AtomShape.link arity) =
        StoreOutcome.failed "Maxiumum Link size is 330.") := by
  have hq : byteSizeOf (dollarOpen ++ name ++ dollarClose) = byteSizeOf name + 12 := by
    rw [byteSizeOf_append, byteSizeOf_append]
    have h1 : byteSizeOf dollarOpen = 6 := by decide
    have h2 : byteSizeOf dollarClose = 6 := by decide
    omega
  refine ⟨fun h => ?_, fun h => ?_, fun h => ?_, fun h => ?_⟩
  · rw [do_store_single_ins_node, hq, if_neg (by omega)]
  · rw [do_store_single_ins_node, hq, if_pos (by omega)]
  · rw [do_store_single_ins_link, if_neg (by omega)]
  · rw [do_store_single_ins_link, if_pos (by omega)]

theorem claim_C7_amended_witness :
    do_store_single_ins (AtomShape.node ['a']) = StoreOutcome.stored (AtomShape.node ['a']) ∧
    do_store_single_ins (AtomShape.link 331) =
      StoreOutcome.failed "Maxiumum Link size is 330." := by
  exact ⟨(claim_C7_amended ['a'] 331).1 (by decide),
         (claim_C7_amended ['a'] 331).2.2.2 (by decide)⟩

/-! Claim C8.  The retry after a failed Atoms statement is unconditional:
the code never inspects why the execution failed. -/

theorem no_exec_in_space_trace :
    ∀ (ch cache : List Nat), DbStmt.execAtoms ∉ (store_atomtable_id cache ch).2 := by
  intro ch
  induction ch with
  | nil => intro cache; simp [store_atomtable_id]
  | cons tid parents ih =>
    intro cache
    by_cases hmem : tid ∈ cache
    · simp [store_atomtable_id, hmem]
    · simp [store_atomtable_id, hmem]
      exact fun h => (ih (tid :: cache)) h

/-- Claim C8 (counterexample): a first execution that fails for a cause
other than a missing space id is nonetheless retried (the statement is
executed twice) and the space tree is written, contradicting the claim
that every other statement failure is surfaced without retry. -/
theorem claim_C8_counterexample :
    FailCause.otherFailure ≠ FailCause.spaceMissing ∧
    countExec (store_exec_phase (some FailCause.otherFailure) (some [3]) []).1 = 2 ∧
    DbStmt.insertSpace ∈ (store_exec_phase (some FailCause.otherFailure) (some [3]) []).1 := by
  refine ⟨by decide, by decide, by decide⟩

/-- Claim C8 (amended): a failed execution of the composed Atoms statement
is always handled the same local way, regardless of the failure's cause:
the space tree is written (when the atom belongs to a table) and the same
statement is retried exactly once; a successful execution is never
retried, and the space tree is only ever written after a failure. -/
theorem claim_C8_amended (res : Option FailCause) (chain : Option (List Nat))
    (cache : List Nat) :
    countExec (store_exec_phase res chain cache).1 = (if res.isSome then 2 else 1) ∧
    (res = none → (store_exec_phase res chain cache).1 = [DbStmt.execAtoms]) ∧
    (DbStmt.insertSpace ∈ (store_exec_phase res chain cache).1 →
      res.isSome = true ∧ chain ≠ none) := by
  cases res with
  | none =>
    refine ⟨by simp [store_exec_phase, countExec], fun _ => rfl, fun h => ?_⟩
    simp [store_exec_phase] at h
  | some cause =>
    cases chain with
    | none =>
      refine ⟨by simp [store_exec_phase, countExec], fun h => by simp at h, fun h => ?_⟩
      simp [store_exec_phase] at h
    | some ch =>
      have hmid := no_exec_in_space_trace ch cache
      have hnil : (store_atomtable_id cache ch).2.filter
          (fun st => decide (st = DbStmt.execAtoms)) = [] := by
        rw [List.filter_eq_nil_iff]
        intro a ha
        simp only [decide_eq_true_eq]
        intro heq
        exact hmid (heq ▸ ha)
      refine ⟨?_, fun h => by simp at h, fun _ => by simp⟩
      simp [store_exec_phase, countExec, List.filter_append, hnil]

theorem claim_C8_amended_witness :
    countExec (store_exec_phase none (some [3]) []).1 = 1 ∧
    (store_exec_phase none (some [3]) []).1 = [DbStmt.execAtoms] ∧
    countExec (store_exec_phase (some FailCause.spaceMissing) (some [3]) []).1 = 2 := by
  refine ⟨?_, (claim_C8_amended none (some [3]) []).2.1 rfl, ?_⟩
  · exact ((claim_C8_amended none (some [3]) []).1).trans (by decide)
  · exact ((claim_C8_amended (some FailCause.spaceMissing) (some [3]) []).1).trans (by decide)

/-! Claim C9.  float_to_string formats through std::to_string, which keeps
six fractional digits, not twelve significant digits. -/

theorem floor_example_q : Int.floor ((1 : Rat) / 1024 * 1000000) = 976 := by
  rw [Int.floor_eq_iff]
  constructor <;> norm_num

theorem ratRound6_example_q : ratRound6 ((1 : Rat) / 1024) = 977 := by
  rw [ratRound6, floor_example_q]
  rw [if_pos (by norm_num)]
  norm_num

theorem toFixed6_example_q : toFixed6 ((1 : Rat) / 1024) = "0.000977" := by
  rw [toFixed6, if_neg (by norm_num), ratRound6_example_q]
  decide

/-- Claim C9 (counterexample): the double 2^-10 = 0.0009765625 has seven
significant decimal digits, so a 12-significant-digit encoding would
denote it exactly; the encoder emits 0.000977, which differs from it
already in the third significant digit. -/
theorem claim_C9_counterexample :
    float_to_string [(1 : Rat) / 1024] = "'\x7b0.000977\x7d'" ∧
    fixed6Val ((1 : Rat) / 1024) ≠ (1 : Rat) / 1024 ∧
    |(1 : Rat) / 1024| / 10 ^ 11 < |fixed6Val ((1 : Rat) / 1024) - (1 : Rat) / 1024| := by
  refine ⟨?_, ?_, ?_⟩
  · simp only [float_to_string, List.foldl_cons, List.foldl_nil, Bool.false_eq_true,
      if_neg, toFixed6_example_q]
    decide
  · rw [fixed6Val, ratRound6_example_q]
    norm_num
  · rw [fixed6Val, ratRound6_example_q]
    rw [abs_of_pos (by norm_num), abs_of_pos (by norm_num)]
    norm_num

theorem ratRound6_close (q : Rat) : |(ratRound6 q : Rat) - q * 1000000| ≤ 1 / 2 := by
  have h1 : ((Int.floor (q * 1000000) : Int) : Rat) ≤ q * 1000000 := Int.floor_le _
  have h2 : q * 1000000 < (Int.floor (q * 1000000) : Int) + 1 := Int.lt_floor_add_one _
  rw [ratRound6]
  split_ifs with hgt hlt hpar
  · rw [abs_le]
    push_cast
    constructor <;> linarith
  · rw [abs_le]
    constructor <;> linarith
  · have heq : q * 1000000 - (Int.floor (q * 1000000) : Int) = 1 / 2 :=
      le_antisymm (not_lt.mp hgt) (not_lt.mp hlt)
    rw [abs_le]
    constructor <;> linarith
  · have heq : q * 1000000 - (Int.floor (q * 1000000) : Int) = 1 / 2 :=
      le_antisymm (not_lt.mp hgt) (not_lt.mp hlt)
    rw [abs_le]
    push_cast
    constructor <;> linarith

theorem fixed6Val_close (q : Rat) : |fixed6Val q - q| ≤ 1 / 2000000 := by
  have h := ratRound6_close q
  have heq : fixed6Val q - q = ((ratRound6 q : Rat) - q * 1000000) / 1000000 := by
    rw [fixed6Val]; ring
  rw [heq, abs_div]
  have hd : |(1000000 : Rat)| = 1000000 := by norm_num
  rw [hd]
  have : |(ratRound6 q : Rat) - q * 1000000| / 1000000 ≤ (1 / 2) / 1000000 := by
    gcongr
  calc |(ratRound6 q : Rat) - q * 1000000| / 1000000 ≤ (1 / 2) / 1000000 := this
    _ = 1 / 2000000 := by norm_num

theorem sep_foldl_true {α : Type} (f : α → String) (l : List α) (acc : String) :
    (l.foldl (fun a v => (true, a.2 ++ (if a.1 then ", " else "") ++ f v)) (true, acc)).2
      = acc ++ tailJoin (l.map f) := by
  induction l generalizing acc with
  | nil => simp [tailJoin]
  | cons x xs ih =>
    simp only [List.foldl_cons, List.map_cons, tailJoin, if_pos]
    rw [ih]
    simp [String.append_assoc]

theorem commaJoin_eq_tailJoin (z : String) (zs : List String) :
    commaJoin (z :: zs) = z ++ tailJoin zs := by
  induction zs generalizing z with
  | nil => simp [commaJoin, tailJoin]
  | cons w ws ih => simp [commaJoin, tailJoin, ih, String.append_assoc]

theorem sep_foldl_false {α : Type} (f : α → String) (l : List α) (acc : String) :
    (l.foldl (fun a v => (true, a.2 ++ (if a.1 then ", " else "") ++ f v)) (false, acc)).2
      = acc ++ commaJoin (l.map f) := by
  cases l with
  | nil => simp [commaJoin]
  | cons x xs =>
    simp only [List.foldl_cons, if_neg, Bool.false_eq_true, not_false_eq_true]
    rw [sep_foldl_true, List.map_cons, commaJoin_eq_tailJoin]
    simp [String.append_assoc]

/-- Claim C9 (amended): float_to_string produces the literal of the
comma-and-space separated elements, each formatted with exactly six
fractional digits as by std::to_string; this preserves each element only
to within half of 10^-6, not to twelve significant digits. -/
theorem claim_C9_amended (l : List Rat) :
    float_to_string l = "'\x7b" ++ commaJoin (l.map toFixed6) ++ "\x7d'" ∧
    ∀ q ∈ l, |fixed6Val q - q| ≤ 1 / 2000000 := by
  constructor
  · rw [float_to_string, sep_foldl_false, String.append_assoc]
  · intro q _
    exact fixed6Val_close q

theorem claim_C9_amended_witness :
    float_to_string [(0 : Rat)] = "'\x7b" ++ commaJoin ([(0 : Rat)].map toFixed6) ++ "\x7d'" ∧
    |fixed6Val (0 : Rat) - 0| ≤ 1 / 2000000 :=
  ⟨(claim_C9_amended [(0 : Rat)]).1,
   (claim_C9_amended [(0 : Rat)]).2 0 (List.mem_singleton.mpr rfl)⟩

/-! Claim C1.  The creation protocol: local_id_cache decides INSERT vs
UPDATE, and a completed INSERT moves the uuid into local_id_cache. -/

theorem insCount_cons (u w : Nat) (k : StmtKind) (tr : List (Nat × StmtKind)) :
    insCount u ((w, k) :: tr)
      = (if w = u ∧ k = StmtKind.ins then 1 else 0) + insCount u tr := by
  by_cases h : w = u ∧ k = StmtKind.ins
  · simp [insCount, List.filter_cons, h]
    omega
  · simp [insCount, List.filter_cons, h]

theorem updCount_cons (u w : Nat) (k : StmtKind) (tr : List (Nat × StmtKind)) :
    updCount u ((w, k) :: tr)
      = (if w = u ∧ k = StmtKind.upd then 1 else 0) + updCount u tr := by
  by_cases h : w = u ∧ k = StmtKind.upd
  · simp [updCount, List.filter_cons, h]
    omega
  · simp [updCount, List.filter_cons, h]

theorem storeSeq_counts (u : Nat) :
    ∀ (us : List Nat) (c : IdCaches), c.createc = [] →
      ((u ∉ c.localc →
          insCount u (storeSeq us c).1 = (if u ∈ us then 1 else 0) ∧
          updCount u (storeSeq us c).1 = us.count u - (if u ∈ us then 1 else 0)) ∧
       (u ∈ c.localc →
          insCount u (storeSeq us c).1 = 0 ∧
          updCount u (storeSeq us c).1 = us.count u)) := by
  intro us
  induction us with
  | nil =>
    intro c hc
    simp [storeSeq, insCount, updCount]
  | cons w ws ih =>
    intro c hc
    by_cases hw : w ∈ c.localc
    · have hstep : do_store_single w c = StepResult.stmt StmtKind.upd c := by
        simp [do_store_single, hw]
      have hrec := ih c hc
      constructor
      · intro hu
        have hne : u ≠ w := fun he => hu (he ▸ hw)
        have h := hrec.1 hu
        simp only [storeSeq, hstep]
        rw [insCount_cons, updCount_cons]
        have hne2 : w ≠ u := fun he => hne he.symm
        simp only [hne2, false_and, if_false]
        constructor
        · rw [h.1]
          simp [List.mem_cons, hne]
        · rw [h.2]
          simp [List.count_cons, List.mem_cons, hne]
      · intro hu
        have h := hrec.2 hu
        simp only [storeSeq, hstep]
        rw [insCount_cons, updCount_cons]
        by_cases he : w = u
        · subst he
          simp only [true_and]
          constructor
          · rw [h.1]
            simp
          · rw [h.2]
            simp [List.count_cons]
            try omega
        · have hne : u ≠ w := fun hx => he hx.symm
          simp only [he, false_and, if_false]
          constructor
          · rw [h.1]
          · rw [h.2]
            simp [List.count_cons, hne]
    · have hnc : w ∉ c.createc := by rw [hc]; exact List.not_mem_nil w
      have hstep : do_store_single w c
          = StepResult.stmt StmtKind.ins
              ⟨w :: c.localc, (w :: c.createc).filter (fun x => x ≠ w)⟩ := by
        simp [do_store_single, hw, hnc]
      have hc1 : ((w :: c.createc).filter (fun x => x ≠ w) : List Nat) = [] := by
        rw [hc]; simp
      have hrec := ih ⟨w :: c.localc, (w :: c.createc).filter (fun x => x ≠ w)⟩ hc1
      constructor
      · intro hu
        by_cases he : w = u
        · subst he
          have hloc : w ∈ (⟨w :: c.localc, (w :: c.createc).filter (fun x => x ≠ w)⟩ : IdCaches).localc := by
            simp
          have h := hrec.2 hloc
          simp only [storeSeq, hstep]
          rw [insCount_cons, updCount_cons]
          simp only [true_and]
          constructor
          · rw [h.1]
            simp
          · rw [h.2]
            simp [List.count_cons]
            try omega
        · have hne : u ≠ w := fun hx => he hx.symm
          have hloc : u ∉ (⟨w :: c.localc, (w :: c.createc).filter (fun x => x ≠ w)⟩ : IdCaches).localc := by
            simp [List.mem_cons, hne, hu]
          have h := hrec.1 hloc
          simp only [storeSeq, hstep]
          rw [insCount_cons, updCount_cons]
          simp only [he, false_and, if_false]
          constructor
          · rw [h.1]
            simp [List.mem_cons, hne]
          · rw [h.2]
            simp [List.count_cons, List.mem_cons, hne]
      · intro hu
        have hne : u ≠ w := fun he => hw (he ▸ hu)
        have hloc : u ∈ (⟨w :: c.localc, (w :: c.createc).filter (fun x => x ≠ w)⟩ : IdCaches).localc := by
          simp [List.mem_cons, hu]
        have h := hrec.2 hloc
        simp only [storeSeq, hstep]
        rw [insCount_cons, updCount_cons]
        have hne2 : w ≠ u := fun he => hne he.symm
        simp only [hne2, false_and, if_false]
        constructor
        · rw [h.1]
        · rw [h.2]
          simp [List.count_cons, hne]

/-- Claim C1: starting from a state in which the EID u is in neither
local_id_cache nor id_create_cache, a sequence of completed store
operations issues an INSERT for u exactly at its first store and an
UPDATE at every later one; in particular N stores of u compose one INSERT
and N - 1 UPDATEs. -/
theorem claim_C1 (u : Nat) (us : List Nat) (c : IdCaches) (n : Nat)
    (hc : c.createc = []) (hl : u ∉ c.localc) :
    insCount u (storeSeq us c).1 = (if u ∈ us then 1 else 0) ∧
    updCount u (storeSeq us c).1 = us.count u - (if u ∈ us then 1 else 0) ∧
    (0 < n →
      insCount u (storeSeq (List.replicate n u) c).1 = 1 ∧
      updCount u (storeSeq (List.replicate n u) c).1 = n - 1) := by
  have h := (storeSeq_counts u us c hc).1 hl
  have h2 := (storeSeq_counts u (List.replicate n u) c hc).1 hl
  refine ⟨h.1, h.2, fun hn => ?_⟩
  have hmem : u ∈ List.replicate n u := by
    rw [List.mem_replicate]
    exact ⟨by omega, rfl⟩
  have hcnt : (List.replicate n u).count u = n := List.count_replicate_self u n
  constructor
  · rw [h2.1, if_pos hmem]
  · rw [h2.2, if_pos hmem, hcnt]

theorem claim_C1_witness :
    insCount 5 (storeSeq [5, 7, 5, 5] ⟨[], []⟩).1 = 1 ∧
    updCount 5 (storeSeq [5, 7, 5, 5] ⟨[], []⟩).1 = 2 ∧
    insCount 5 (storeSeq (List.replicate 3 5) ⟨[], []⟩).1 = 1 ∧
    updCount 5 (storeSeq (List.replicate 3 5) ⟨[], []⟩).1 = 2 := by
  have h := claim_C1 5 [5, 7, 5, 5] ⟨[], []⟩ 3 rfl (List.not_mem_nil 5)
  exact ⟨h.1.trans (by decide), h.2.1.trans (by decide),
    ((h.2.2 (by decide)).1).trans (by decide), ((h.2.2 (by decide)).2).trans (by decide)⟩

/-! Claim C6.  Heights: the loop in get_height, the recursion of
do_store_atom, and the spec's reference definition agree. -/

mutual

theorem get_height_eq : (a : PAtom) → get_height a = refHeight a
  | PAtom.node _ => rfl
  | PAtom.link out => by
    rw [get_height, refHeight, heightLoop_eq out 0]
    rw [Nat.zero_max]
    omega

theorem heightLoop_eq : (l : List PAtom) → (m : Nat) → heightLoop l m = max m (refHeightMax l)
  | [], m => by simp [heightLoop, refHeightMax]
  | h :: rest, m => by
    rw [heightLoop, heightLoop_eq rest _, get_height_eq h, refHeightMax]
    simp only [Nat.max_def]
    split_ifs <;> omega

end

mutual

theorem do_store_atom_spec : (a : PAtom) →
    (∀ p ∈ (do_store_atom a).1, p.2 = refHeight p.1) ∧ (do_store_atom a).2 = refHeight a
  | PAtom.node s => by
    constructor
    · intro p hp
      simp only [do_store_atom, List.mem_singleton] at hp
      rw [hp]
      rfl
    · rfl
  | PAtom.link out => by
    have hk := storeKids_spec out [] 0 (by intro p hp; cases hp)
    constructor
    · intro p hp
      simp only [do_store_atom, List.mem_append, List.mem_singleton] at hp
      rcases hp with h1 | h2
      · exact hk.1 p h1
      · rw [h2]
        show (storeKids out [] 0).2 + 1 = refHeight (PAtom.link out)
        rw [hk.2, refHeight, Nat.zero_max]
        omega
    · show (storeKids out [] 0).2 + 1 = refHeight (PAtom.link out)
      rw [hk.2, refHeight, Nat.zero_max]
      omega

theorem storeKids_spec : (l : List PAtom) → (tr : List (PAtom × Nat)) → (lh : Nat) →
    (∀ p ∈ tr, p.2 = refHeight p.1) →
    (∀ p ∈ (storeKids l tr lh).1, p.2 = refHeight p.1) ∧
    (storeKids l tr lh).2 = max lh (refHeightMax l)
  | [], tr, lh, htr => by
    constructor
    · intro p hp
      exact htr p hp
    · simp [storeKids, refHeightMax]
  | h :: rest, tr, lh, htr => by
    have hs := do_store_atom_spec h
    have htr2 : ∀ p ∈ tr ++ (do_store_atom h).1, p.2 = refHeight p.1 := by
      intro p hp
      rcases List.mem_append.mp hp with h1 | h2
      · exact htr p h1
      · exact hs.1 p h2
    have hrec := storeKids_spec rest (tr ++ (do_store_atom h).1)
        (if lh < (do_store_atom h).2 then (do_store_atom h).2 else lh) htr2
    constructor
    · intro p hp
      exact hrec.1 p hp
    · show (storeKids rest (tr ++ (do_store_atom h).1)
          (if lh < (do_store_atom h).2 then (do_store_atom h).2 else lh)).2
        = max lh (refHeightMax (h :: rest))
      rw [hrec.2, hs.2, refHeightMax]
      simp only [Nat.max_def]
      split_ifs <;> omega

end

/-- Claim C6: for every atom the height written by the store path equals
the reference definition (0 for a node, one more than the maximum child
height for a link): get_height computes it, do_store_atom returns it,
and every (atom, height) pair that do_store_atom hands to
do_store_single_atom carries the reference height of that atom. -/
theorem claim_C6 (a : PAtom) :
    get_height a = refHeight a ∧
    (do_store_atom a).2 = refHeight a ∧
    ∀ p ∈ (do_store_atom a).1, p.2 = refHeight p.1 :=
  ⟨get_height_eq a, (do_store_atom_spec a).2, (do_store_atom_spec a).1⟩

theorem claim_C6_witness :
    get_height (PAtom.link [PAtom.node "a", PAtom.link [PAtom.node "b"]])
      = refHeight (PAtom.link [PAtom.node "a", PAtom.link [PAtom.node "b"]]) ∧
    (PAtom.node "b", 0).2 = refHeight (PAtom.node "b") :=
  ⟨(claim_C6 (PAtom.link [PAtom.node "a", PAtom.link [PAtom.node "b"]])).1,
   (claim_C6 (PAtom.link [PAtom.node "a", PAtom.link [PAtom.node "b"]])).2.2
      (PAtom.node "b", 0) (by decide)⟩

/-! Claim C5.  Type-code reconciliation. -/

theorem getTypeFrom_not_mem (s : String) :
    ∀ (names : List String), s ∉ names → getTypeFrom s names = NOTYPE
  | [], _ => rfl
  | a :: rest, h => by
    have hne : a ≠ s := fun he => h (by rw [he]; exact List.mem_cons_self s rest)
    have hrest : s ∉ rest := fun hx => h (List.mem_cons_of_mem a hx)
    rw [getTypeFrom, if_neg hne, getTypeFrom_not_mem s rest hrest, if_pos rfl]

theorem getD_mem_of_lt :
    ∀ (l : List String) (n : Nat), n < l.length → l.getD n "" ∈ l
  | a :: rest, 0, _ => by
    rw [List.getD_cons_zero]
    exact List.mem_cons_self a rest
  | a :: rest, n + 1, h => by
    rw [List.getD_cons_succ]
    have hn : n < rest.length := by
      simp only [List.length_cons] at h
      omega
    exact List.mem_cons_of_mem a (getD_mem_of_lt rest n hn)

theorem getTypeFrom_getD :
    ∀ (names : List String) (t : Nat), names.Nodup → names.length ≤ NOTYPE →
      t < names.length → getTypeFrom (names.getD t "") names = t
  | a :: rest, 0, _, _, _ => by
    rw [List.getD_cons_zero, getTypeFrom, if_pos rfl]
  | a :: rest, t + 1, hnd, hlen, ht => by
    have hndr : rest.Nodup := (List.nodup_cons.mp hnd).2
    have hanr : a ∉ rest := (List.nodup_cons.mp hnd).1
    have htr : t < rest.length := by
      simp only [List.length_cons] at ht
      omega
    have hlenr : rest.length ≤ NOTYPE := by
      simp only [List.length_cons] at hlen
      omega
    have hmem : rest.getD t "" ∈ rest := getD_mem_of_lt rest t htr
    have hne : a ≠ rest.getD t "" := fun he => hanr (he ▸ hmem)
    have htN : t ≠ NOTYPE := by
      simp only [List.length_cons, NOTYPE] at hlen ⊢
      omega
    rw [List.getD_cons_succ, getTypeFrom, if_neg hne,
      getTypeFrom_getD rest t hndr hlenr htr, if_neg htN]

theorem getType_getD (names : List String) (t : Nat) (hnd : names.Nodup)
    (hlen : names.length ≤ NOTYPE) (ht : t < names.length) :
    getType names (getTypeName names t) = t := by
  rw [getType, getTypeName]
  exact getTypeFrom_getD names t hnd hlen ht

theorem typemapStep_of_some (names : List String) (st : TypeMapState) (t c : Nat)
    (h : st.storing t = some c) : typemapStep names st t = st := by
  simp [typemapStep, h]

theorem typemapStep_of_none (names : List String) (st : TypeMapState) (t : Nat)
    (h : st.storing t = none) :
    typemapStep names st t =
      ⟨updFn st.loading (if st.dbname t ≠ none ∧ st.loading t ≠ t then findFreeSlot st else t)
          (getType names (getTypeName names t)),
       updFn st.storing (getType names (getTypeName names t))
          (some (if st.dbname t ≠ none ∧ st.loading t ≠ t then findFreeSlot st else t)),
       updFn st.dbname (if st.dbname t ≠ none ∧ st.loading t ≠ t then findFreeSlot st else t)
          (some (getTypeName names t)),
       st.rows ++ [(if st.dbname t ≠ none ∧ st.loading t ≠ t then findFreeSlot st else t,
          getTypeName names t)]⟩ := by
  simp [typemapStep, h, set_typemap]

theorem findFreeFrom_blocked (st : TypeMapState) :
    ∀ (m start k : Nat), (∀ j, start ≤ j → j < start + m → st.dbname j ≠ none) →
      st.dbname (start + m) = none → m < k → findFreeFrom st start k = start + m
  | 0, start, k, hb, hnone, hk => by
    cases k with
    | zero => omega
    | succ k1 =>
      rw [findFreeFrom, if_pos (by simpa using hnone)]
      omega
  | m + 1, start, k, hb, hnone, hk => by
    cases k with
    | zero => omega
    | succ k1 =>
      have hst : st.dbname start ≠ none := hb start (le_refl _) (by omega)
      rw [findFreeFrom, if_neg hst]
      have hrec := findFreeFrom_blocked st m (start + 1) k1
        (fun j hj1 hj2 => hb j (by omega) (by omega))
        (by rw [show start + 1 + m = start + (m + 1) from by omega]; exact hnone)
        (by omega)
      rw [hrec]
      omega

theorem findFreeFrom_result (st : TypeMapState) :
    ∀ (k start : Nat),
      st.dbname (findFreeFrom st start k) = none ∨ findFreeFrom st start k = start + k
  | 0, start => Or.inr (by rw [findFreeFrom]; omega)
  | k + 1, start => by
    by_cases h : st.dbname start = none
    · left
      rw [findFreeFrom, if_pos h]
      exact h
    · rcases findFreeFrom_result st k (start + 1) with h1 | h1
      · left
        rw [findFreeFrom, if_neg h]
        exact h1
      · right
        rw [findFreeFrom, if_neg h, h1]
        omega

theorem findFreeSlot_result (st : TypeMapState) :
    st.dbname (findFreeSlot st) = none ∨ findFreeSlot st = TYPEMAP_SZ := by
  rcases findFreeFrom_result st TYPEMAP_SZ 0 with h | h
  · exact Or.inl h
  · right
    rw [findFreeSlot, h]
    omega

theorem mid_inv_start (names : List String)
    (hFoo : "Foo" ∉ names) (hlen : names.length ≤ NOTYPE) :
    MidInv names 0 (loadDbRows names (initTypeMap [(7, "Foo")]) [(7, "Foo")]) := by
  have hF : getType names "Foo" = NOTYPE := by
    rw [getType]
    exact getTypeFrom_not_mem "Foo" names hFoo
  simp only [loadDbRows, List.foldl_cons, List.foldl_nil, initTypeMap, set_typemap, hF]
  refine ⟨fun i hi => by omega, by simp [updFn], fun j hj hj7 => by simp [updFn, hj7],
    fun i hi => by omega, fun j hj hjlen => ?_, by simp [updFn], by simp⟩
  have : j ≠ NOTYPE := by
    simp only [NOTYPE] at hlen ⊢
    omega
  simp [updFn, this]

theorem mid_inv_step (names : List String) (k : Nat) (st : TypeMapState)
    (hnd : names.Nodup) (hlen : names.length ≤ NOTYPE) (h7 : 7 < names.length)
    (hk : k < 7) (hinv : MidInv names k st) :
    MidInv names (k + 1) (typemapStep names st k) := by
  obtain ⟨h1, h2, h3, h4, h5, h6, h7r⟩ := hinv
  have hklen : k < names.length := lt_trans hk h7
  have hsk : st.storing k = none := h5 k (le_refl k) hklen
  have hdk : st.dbname k = none := h3 k (le_refl k) (by omega)
  have hcond : ¬ (st.dbname k ≠ none ∧ st.loading k ≠ k) := fun hc => hc.1 hdk
  have hreal : getType names (getTypeName names k) = k := getType_getD names k hnd hlen hklen
  rw [typemapStep_of_none names st k hsk]
  simp only [if_neg hcond, hreal]
  refine ⟨?_, ?_, ?_, ?_, ?_, ?_, ?_⟩
  · intro i hi
    by_cases hik : i = k
    · simp [updFn, hik, getTypeName]
    · simp only [updFn, if_neg hik]
      exact h1 i (by omega)
  · simp only [updFn]
    rw [if_neg (by omega)]
    exact h2
  · intro j hj hj7
    simp only [updFn]
    rw [if_neg (by omega)]
    exact h3 j (by omega) hj7
  · intro i hi
    by_cases hik : i = k
    · simp [updFn, hik]
    · simp only [updFn, if_neg hik]
      exact h4 i (by omega)
  · intro j hj hjlen
    simp only [updFn]
    rw [if_neg (by omega)]
    exact h5 j (by omega) hjlen
  · simp only [updFn]
    rw [if_neg (by omega)]
    exact h6
  · simp only [h7r, List.range_succ, List.map_append]
    simp [getTypeName]

theorem mid_inv_upto (names : List String)
    (hnd : names.Nodup) (hFoo : "Foo" ∉ names) (hlen : names.length ≤ NOTYPE)
    (h7 : 7 < names.length) :
    ∀ k, k ≤ 7 → MidInv names k ((List.range k).foldl (typemapStep names)
      (loadDbRows names (initTypeMap [(7, "Foo")]) [(7, "Foo")]))
  | 0, _ => by
    simpa [List.range_zero] using mid_inv_start names hFoo hlen
  | k + 1, hk => by
    rw [List.range_succ, List.foldl_append, List.foldl_cons, List.foldl_nil]
    exact mid_inv_step names k _ hnd hlen h7 (by omega)
      (mid_inv_upto names hnd hFoo hlen h7 k (by omega))

theorem step_seven (names : List String) (st : TypeMapState)
    (hnd : names.Nodup) (hlen : names.length ≤ NOTYPE) (h7 : 7 < names.length)
    (hBar : names.getD 7 "" = "Bar") (hinv : MidInv names 7 st) :
    TailInv (typemapStep names st 7) ∧ findFreeSlot st = 8 ∧
    (∀ j, j < 8 → st.dbname j ≠ none) ∧ st.dbname 8 = none := by
  obtain ⟨h1, h2, h3, h4, h5, h6, h7r⟩ := hinv
  have hs7 : st.storing 7 = none := h5 7 (le_refl 7) h7
  have hblock : ∀ j, j < 8 → st.dbname j ≠ none := by
    intro j hj
    by_cases hj7 : j = 7
    · rw [hj7, h2]
      simp
    · rw [h1 j (by omega)]
      simp
  have h8none : st.dbname 8 = none := h3 8 (by omega) (by omega)
  have hfree : findFreeSlot st = 8 := by
    rw [findFreeSlot]
    have := findFreeFrom_blocked st 8 0 TYPEMAP_SZ
      (fun j hj1 hj2 => hblock j (by omega))
      (by simpa using h8none)
      (by simp [TYPEMAP_SZ])
    simpa using this
  have hcond : st.dbname 7 ≠ none ∧ st.loading 7 ≠ 7 := by
    refine ⟨by rw [h2]; simp, ?_⟩
    rw [h6]
    simp [NOTYPE]
  have hreal : getType names (getTypeName names 7) = 7 := getType_getD names 7 hnd hlen h7
  have hname : getTypeName names 7 = "Bar" := by
    rw [getTypeName, hBar]
  refine ⟨?_, hfree, hblock, h8none⟩
  rw [typemapStep_of_none names st 7 hs7]
  simp only [if_pos hcond, hreal, hfree]
  refine ⟨?_, ?_, ?_, ?_, ?_, ?_, ?_⟩
  · simp only [updFn]
    rw [if_neg (by omega)]
    exact h2
  · simp [updFn, hname]
  · simp [updFn]
  · simp only [updFn]
    rw [if_neg (by omega)]
    exact h6
  · simp [updFn]
  · exact List.mem_append_left _ (by rw [h7r]; exact List.mem_cons_self _ _)
  · exact List.mem_append_right _ (by simp [hname])

theorem tail_inv_step (names : List String) (st : TypeMapState) (t : Nat)
    (ht7 : t ≠ 7) (hreal : getType names (getTypeName names t) ≠ 7)
    (hinv : TailInv st) : TailInv (typemapStep names st t) := by
  obtain ⟨d7, d8, s7, l7, l8, r7, r8⟩ := hinv
  cases hst : st.storing t with
  | some c =>
    rw [typemapStep_of_some names st t c hst]
    exact ⟨d7, d8, s7, l7, l8, r7, r8⟩
  | none =>
    rw [typemapStep_of_none names st t hst]
    have hsq : (if st.dbname t ≠ none ∧ st.loading t ≠ t then findFreeSlot st else t) ≠ 7 ∧
        (if st.dbname t ≠ none ∧ st.loading t ≠ t then findFreeSlot st else t) ≠ 8 := by
      by_cases hc : st.dbname t ≠ none ∧ st.loading t ≠ t
      · rw [if_pos hc]
        rcases findFreeSlot_result st with hfr | hfr
        · constructor
          · intro he
            rw [he, d7] at hfr
            cases hfr
          · intro he
            rw [he, d8] at hfr
            cases hfr
        · rw [hfr]
          simp [TYPEMAP_SZ]
      · rw [if_neg hc]
        push_neg at hc
        refine ⟨ht7, ?_⟩
        intro he
        rw [he] at hc
        have h88 := hc (by rw [d8]; simp)
        rw [l8] at h88
        omega
    refine ⟨?_, ?_, ?_, ?_, ?_, ?_, ?_⟩
    · simp only [updFn]
      rw [if_neg (fun he => hsq.1 he.symm)]
      exact d7
    · simp only [updFn]
      rw [if_neg (fun he => hsq.2 he.symm)]
      exact d8
    · simp only [updFn]
      rw [if_neg (fun he => hreal he.symm)]
      exact s7
    · simp only [updFn]
      rw [if_neg (fun he => hsq.1 he.symm)]
      exact l7
    · simp only [updFn]
      rw [if_neg (fun he => hsq.2 he.symm)]
      exact l8
    · exact List.mem_append_left _ r7
    · exact List.mem_append_left _ r8

theorem tail_inv_fold (names : List String) :
    ∀ (ts : List Nat) (st : TypeMapState),
      (∀ t ∈ ts, t ≠ 7 ∧ getType names (getTypeName names t) ≠ 7) →
      TailInv st → TailInv (ts.foldl (typemapStep names) st)
  | [], _, _, hinv => hinv
  | t :: ts, st, hts, hinv => by
    rw [List.foldl_cons]
    exact tail_inv_fold names ts _
      (fun x hx => hts x (List.mem_cons_of_mem t hx))
      (tail_inv_step names st t (hts t (List.mem_cons_self t ts)).1
        (hts t (List.mem_cons_self t ts)).2 hinv)

/-- Claim C5: with the TypeCodes table holding the foreign row (7, Foo)
whose name the runtime does not know, and the runtime naming its own code
7 Bar, setup_typemap assigns Bar the db code 8 (different from 7), keeps
both (7, Foo) and (8, Bar) in TypeCodes, maps db code 7 to NOTYPE, and 8
is exactly the lowest db slot unused at the moment of the fallback scan
(slots 0..6 were claimed by the lower runtime types and slot 7 by Foo). -/
theorem claim_C5 (names : List String)
    (hnd : names.Nodup) (hFoo : "Foo" ∉ names) (hBar : names.getD 7 "" = "Bar")
    (h7 : 7 < names.length) (hlen : names.length ≤ NOTYPE) :
    (setup_typemap names [(7, "Foo")]).storing 7 = some 8 ∧
    (8 : Nat) ≠ 7 ∧
    (7, "Foo") ∈ (setup_typemap names [(7, "Foo")]).rows ∧
    (8, "Bar") ∈ (setup_typemap names [(7, "Foo")]).rows ∧
    (setup_typemap names [(7, "Foo")]).loading 7 = NOTYPE ∧
    (∀ j, j < 8 →
      ((List.range 7).foldl (typemapStep names)
        (loadDbRows names (initTypeMap [(7, "Foo")]) [(7, "Foo")])).dbname j ≠ none) ∧
    ((List.range 7).foldl (typemapStep names)
        (loadDbRows names (initTypeMap [(7, "Foo")]) [(7, "Foo")])).dbname 8 = none ∧
    findFreeSlot ((List.range 7).foldl (typemapStep names)
        (loadDbRows names (initTypeMap [(7, "Foo")]) [(7, "Foo")])) = 8 := by
  have hmid := mid_inv_upto names hnd hFoo hlen h7 7 (le_refl 7)
  have hstep := step_seven names _ hnd hlen h7 hBar hmid
  have hsplit : List.range names.length = List.range 8 ++ List.range' 8 (names.length - 8) := by
    have happ := List.range'_append 0 8 (names.length - 8) 1
    rw [show 0 + 1 * 8 = 8 from by omega] at happ
    rw [List.range_eq_range', List.range_eq_range', happ]
    congr 1
    omega
  have hfold : setup_typemap names [(7, "Foo")]
      = (List.range' 8 (names.length - 8)).foldl (typemapStep names)
          (typemapStep names ((List.range 7).foldl (typemapStep names)
            (loadDbRows names (initTypeMap [(7, "Foo")]) [(7, "Foo")])) 7) := by
    rw [setup_typemap, hsplit, List.foldl_append,
      show (8 : Nat) = 7 + 1 from rfl, List.range_succ, List.foldl_append,
      List.foldl_cons, List.foldl_nil]
  have htail : TailInv (setup_typemap names [(7, "Foo")]) := by
    rw [hfold]
    refine tail_inv_fold names _ _ ?_ hstep.1
    intro t ht
    have hmem := List.mem_range'_1.mp ht
    have htlen : t < names.length := by omega
    have h8t : 8 ≤ t := hmem.1
    refine ⟨by omega, ?_⟩
    rw [getType_getD names t hnd hlen htlen]
    omega
  obtain ⟨d7, d8, s7, l7, l8, r7, r8⟩ := htail
  exact ⟨s7, by omega, r7, r8, l7, hstep.2.2.1, hstep.2.2.2, hstep.2.1⟩

theorem claim_C5_witness :
    (setup_typemap ["t0", "t1", "t2", "t3", "t4", "t5", "t6", "Bar", "t8"]
        [(7, "Foo")]).storing 7 = some 8 ∧
    (7, "Foo") ∈ (setup_typemap ["t0", "t1", "t2", "t3", "t4", "t5", "t6", "Bar", "t8"]
        [(7, "Foo")]).rows ∧
    (8, "Bar") ∈ (setup_typemap ["t0", "t1", "t2", "t3", "t4", "t5", "t6", "Bar", "t8"]
        [(7, "Foo")]).rows ∧
    (setup_typemap ["t0", "t1", "t2", "t3", "t4", "t5", "t6", "Bar", "t8"]
        [(7, "Foo")]).loading 7 = NOTYPE := by
  have h := claim_C5 ["t0", "t1", "t2", "t3", "t4", "t5", "t6", "Bar", "t8"]
    (by decide) (by decide) (by decide) (by decide) (by decide)
  exact ⟨h.1, h.2.2.1, h.2.2.2.1, h.2.2.2.2.1⟩

/-! Claim C4.  The cascading delete removes exactly the rows reachable
through linkvalue references. -/

theorem vlookup_mem : ∀ (s : ValTable) (v : Nat) (r : VRow),
    vlookup s v = some r → (v, r) ∈ s
  | [], v, r, h => by simp [vlookup] at h
  | (a, b) :: rest, v, r, h => by
    rw [vlookup] at h
    by_cases hp : a = v
    · rw [if_pos hp] at h
      injection h with hb
      subst hp
      subst hb
      exact List.mem_cons_self _ _
    · rw [if_neg hp] at h
      exact List.mem_cons_of_mem _ (vlookup_mem rest v r h)

theorem mem_vlookup : ∀ (s : ValTable), KeysNodup s →
    ∀ {v : Nat} {r : VRow}, (v, r) ∈ s → vlookup s v = some r
  | [], _, v, r, h => absurd h (List.not_mem_nil _)
  | (a, b) :: rest, hnd, v, r, h => by
    have hnd2 : (a ∉ rest.map (fun p => p.1)) ∧ KeysNodup rest := by
      rw [KeysNodup, List.map_cons, List.nodup_cons] at hnd
      exact hnd
    rcases List.mem_cons.mp h with he | hm
    · rw [Prod.mk.injEq] at he
      rw [vlookup, if_pos he.1.symm, he.2]
    · have hva : a ≠ v := by
        intro hav
        apply hnd2.1
        rw [hav]
        exact List.mem_map_of_mem (fun p => p.1) hm
      rw [vlookup, if_neg hva]
      exact mem_vlookup rest hnd2.2 hm

theorem vlookup_cons (p : Nat × VRow) (rest : ValTable) (w : Nat) :
    vlookup (p :: rest) w = if p.1 = w then some p.2 else vlookup rest w :=
  rfl

theorem vremove_cons (p : Nat × VRow) (rest : ValTable) (v : Nat) :
    vremove (p :: rest) v =
      if p.1 = v then vremove rest v else p :: vremove rest v := by
  by_cases hp : p.1 = v
  · simp [vremove, List.filter_cons, hp]
  · simp [vremove, List.filter_cons, hp]

theorem vlookup_vremove_self (s : ValTable) (v : Nat) :
    vlookup (vremove s v) v = none := by
  induction s with
  | nil => rfl
  | cons p rest ih =>
    rw [vremove_cons]
    by_cases hp : p.1 = v
    · rw [if_pos hp]
      exact ih
    · rw [if_neg hp, vlookup_cons, if_neg hp]
      exact ih

theorem vlookup_vremove_ne (s : ValTable) {v w : Nat} (h : w ≠ v) :
    vlookup (vremove s v) w = vlookup s w := by
  induction s with
  | nil => rfl
  | cons p rest ih =>
    rw [vremove_cons, vlookup_cons]
    by_cases hp : p.1 = v
    · rw [if_pos hp]
      have hpw : p.1 ≠ w := fun he => h (he ▸ hp)
      rw [if_neg hpw]
      exact ih
    · rw [if_neg hp, vlookup_cons]
      by_cases hpw : p.1 = w
      · rw [if_pos hpw, if_pos hpw]
      · rw [if_neg hpw, if_neg hpw]
        exact ih

theorem vremove_sublist (s : ValTable) (v : Nat) : List.Sublist (vremove s v) s :=
  List.filter_sublist s

theorem keysNodup_sublist {s2 s : ValTable} (hsub : List.Sublist s2 s) (h : KeysNodup s) :
    KeysNodup s2 :=
  List.Nodup.sublist (hsub.map (fun p => p.1)) h

theorem increasing_sublist {s2 s : ValTable} (hsub : List.Sublist s2 s) (h : Increasing s) :
    Increasing s2 :=
  fun p hp hk u hu => h p (hsub.subset hp) hk u hu

theorem vlookup_sublist {s2 s : ValTable} (hnd : KeysNodup s) (hsub : List.Sublist s2 s)
    {w : Nat} {r : VRow} (h : vlookup s2 w = some r) : vlookup s w = some r :=
  mem_vlookup s hnd (hsub.subset (vlookup_mem s2 w r h))

mutual

theorem delValF_sublist : ∀ (fuel : Nat) (s : ValTable) (v : Nat),
    List.Sublist (delValF fuel s v) s
  | 0, s, v => by
    have h : delValF 0 s v = s := by simp [delValF]
    rw [h]
  | fuel + 1, s, v => by
    cases hv : vlookup s v with
    | none =>
      simpa [delValF, hv] using vremove_sublist s v
    | some r =>
      by_cases hk : r.kind = VKind.lnk
      · have h1 := delListF_sublist fuel s r.lpay
        have h2 := vremove_sublist (delListF fuel s r.lpay) v
        simpa [delValF, hv, hk] using h2.trans h1
      · simpa [delValF, hv, hk] using vremove_sublist s v
termination_by fuel s v => (fuel, 0)

theorem delListF_sublist : ∀ (fuel : Nat) (s : ValTable) (ws : List Nat),
    List.Sublist (delListF fuel s ws) s
  | fuel, s, [] => by
    have h : delListF fuel s [] = s := by simp [delListF]
    rw [h]
  | fuel, s, w :: ws => by
    have h1 := delValF_sublist fuel s w
    have h2 := delListF_sublist fuel (delValF fuel s w) ws
    simpa [delListF] using h2.trans h1
termination_by fuel s ws => (fuel, 1 + ws.length)

end

theorem reaches_trans {s : ValTable} {u v x : Nat}
    (h1 : Reaches s u v) (h2 : Reaches s v x) : Reaches s u x := by
  induction h1 with
  | refl v => exact h2
  | step r hv hk hm ht ih => exact Reaches.step r hv hk hm (ih h2)

theorem reaches_mono {s2 s : ValTable} (hnd : KeysNodup s) (hsub : List.Sublist s2 s)
    {u w : Nat} (h : Reaches s2 u w) : Reaches s u w := by
  induction h with
  | refl v => exact Reaches.refl v
  | step r hv hk hm ht ih => exact Reaches.step r (vlookup_sublist hnd hsub hv) hk hm ih

theorem reach_split {s s1 : ValTable} {w0 : Nat}
    (hkeep : ∀ x, ¬ Reaches s w0 x → vlookup s1 x = vlookup s x) :
    ∀ {u w : Nat}, Reaches s u w → Reaches s w0 w ∨ Reaches s1 u w := by
  intro u w h
  induction h with
  | refl v => exact Or.inr (Reaches.refl v)
  | @step v w1 x r hv hk hm ht ih =>
    rcases ih with hl | hr
    · exact Or.inl hl
    · by_cases hw0 : Reaches s w0 v
      · exact Or.inl (reaches_trans hw0 (Reaches.step r hv hk hm ht))
      · have hv1 : vlookup s1 v = some r := by
          rw [hkeep v hw0]
          exact hv
        exact Or.inr (Reaches.step r hv1 hk hm hr)

theorem msr_le_length (s : ValTable) (v : Nat) : msr s v ≤ s.length :=
  List.length_filter_le _ s

theorem msr_sublist {s2 s : ValTable} (hsub : List.Sublist s2 s) (v : Nat) :
    msr s2 v ≤ msr s v :=
  (hsub.filter _).length_le

theorem msr_lt_of_mem {s : ValTable} {v : Nat} {r : VRow} {w : Nat}
    (hm : (v, r) ∈ s) (hvw : v < w) : msr s w < msr s v := by
  rw [msr, msr]
  have hsub : s.filter (fun p => decide (w ≤ p.1))
      = (s.filter (fun p => decide (v ≤ p.1))).filter (fun p => decide (w ≤ p.1)) := by
    rw [List.filter_filter]
    apply List.filter_congr
    intro x hx
    by_cases hw : w ≤ x.1
    · have hv : v ≤ x.1 := le_of_lt (lt_of_lt_of_le hvw hw)
      simp [hw, hv]
    · simp [hw]
  rw [hsub]
  apply List.length_filter_lt_length_iff_exists.mpr
  refine ⟨(v, r), List.mem_filter.mpr ⟨hm, by simp⟩, by simpa using hvw⟩

theorem delValF_succ_none {fuel : Nat} {s : ValTable} {v : Nat}
    (hv : vlookup s v = none) : delValF (fuel + 1) s v = vremove s v := by
  simp [delValF, hv]

theorem delValF_succ_flat {fuel : Nat} {s : ValTable} {v : Nat} {r : VRow}
    (hv : vlookup s v = some r) (hk : r.kind ≠ VKind.lnk) :
    delValF (fuel + 1) s v = vremove s v := by
  simp [delValF, hv, hk]

theorem delValF_succ_lnk {fuel : Nat} {s : ValTable} {v : Nat} {r : VRow}
    (hv : vlookup s v = some r) (hk : r.kind = VKind.lnk) :
    delValF (fuel + 1) s v = vremove (delListF fuel s r.lpay) v := by
  simp [delValF, hv, hk]

theorem delListF_cons (fuel : Nat) (s : ValTable) (w : Nat) (ws : List Nat) :
    delListF fuel s (w :: ws) = delListF fuel (delValF fuel s w) ws := by
  simp [delListF]

mutual

theorem delValF_spec : ∀ (fuel : Nat) (s : ValTable) (v : Nat),
    KeysNodup s → Increasing s → msr s v < fuel →
    ∀ w, (Reaches s v w → vlookup (delValF fuel s v) w = none) ∧
         (¬ Reaches s v w → vlookup (delValF fuel s v) w = vlookup s w)
  | 0, s, v, _, _, hf, w => absurd hf (by omega)
  | fuel + 1, s, v, hnd, hinc, hf, w => by
    cases hv : vlookup s v with
    | none =>
      rw [delValF_succ_none hv]
      constructor
      · intro hr
        cases hr with
        | refl => exact vlookup_vremove_self s v
        | step r2 hv2 hk2 hm2 ht2 =>
          rw [hv] at hv2
          cases hv2
      · intro hnr
        have hwv : w ≠ v := fun he => hnr (by rw [he]; exact Reaches.refl v)
        exact vlookup_vremove_ne s hwv
    | some r =>
      by_cases hk : r.kind = VKind.lnk
      · rw [delValF_succ_lnk hv hk]
        have hmem : (v, r) ∈ s := vlookup_mem s v r hv
        have hbound : ∀ u ∈ r.lpay, msr s u < fuel := by
          intro u hu
          have hvu : v < u := hinc (v, r) hmem hk u hu
          have := msr_lt_of_mem hmem hvu
          omega
        have hlist := delListF_spec fuel s r.lpay hnd hinc hbound
        constructor
        · intro hr
          cases hr with
          | refl => exact vlookup_vremove_self _ v
          | @step v2 w1 x2 r2 hv2 hk2 hm2 ht2 =>
            rw [hv] at hv2
            injection hv2 with hr2
            subst hr2
            by_cases hwv : w = v
            · rw [hwv]
              exact vlookup_vremove_self _ v
            · rw [vlookup_vremove_ne _ hwv]
              exact (hlist w).1 ⟨w1, hm2, ht2⟩
        · intro hnr
          have hwv : w ≠ v := fun he => hnr (by rw [he]; exact Reaches.refl v)
          rw [vlookup_vremove_ne _ hwv]
          have hnochild : ∀ u ∈ r.lpay, ¬ Reaches s u w := by
            intro u hu hru
            exact hnr (Reaches.step r hv hk hu hru)
          exact (hlist w).2 hnochild
      · rw [delValF_succ_flat hv hk]
        constructor
        · intro hr
          cases hr with
          | refl => exact vlookup_vremove_self s v
          | step r2 hv2 hk2 hm2 ht2 =>
            rw [hv] at hv2
            injection hv2 with hr2
            subst hr2
            exact absurd hk2 hk
        · intro hnr
          have hwv : w ≠ v := fun he => hnr (by rw [he]; exact Reaches.refl v)
          exact vlookup_vremove_ne s hwv
termination_by fuel s v => (fuel, 0)

theorem delListF_spec : ∀ (fuel : Nat) (s : ValTable) (ws : List Nat),
    KeysNodup s → Increasing s → (∀ u ∈ ws, msr s u < fuel) →
    ∀ w, ((∃ u ∈ ws, Reaches s u w) → vlookup (delListF fuel s ws) w = none) ∧
         ((∀ u ∈ ws, ¬ Reaches s u w) → vlookup (delListF fuel s ws) w = vlookup s w)
  | fuel, s, [], _, _, _, w => by
    constructor
    · rintro ⟨u, hu, _⟩
      exact absurd hu (List.not_mem_nil u)
    · intro _
      simp [delListF]
  | fuel, s, w0 :: ws, hnd, hinc, hb, w => by
    have hw0 := hb w0 (List.mem_cons_self w0 ws)
    have hDV := delValF_spec fuel s w0 hnd hinc hw0
    have hsub : List.Sublist (delValF fuel s w0) s := delValF_sublist fuel s w0
    have hnd1 : KeysNodup (delValF fuel s w0) := keysNodup_sublist hsub hnd
    have hinc1 : Increasing (delValF fuel s w0) := increasing_sublist hsub hinc
    have hb1 : ∀ u ∈ ws, msr (delValF fuel s w0) u < fuel := by
      intro u hu
      have h1 := msr_sublist hsub u
      have h2 := hb u (List.mem_cons_of_mem w0 hu)
      omega
    have hDL := delListF_spec fuel (delValF fuel s w0) ws hnd1 hinc1 hb1
    rw [delListF_cons]
    constructor
    · rintro ⟨u, hu, hru⟩
      rcases List.mem_cons.mp hu with he | hm
      · subst he
        have hnone : vlookup (delValF fuel s u) w = none := (hDV w).1 hru
        by_cases hex : ∃ u2 ∈ ws, Reaches (delValF fuel s u) u2 w
        · exact (hDL w).1 hex
        · push_neg at hex
          rw [(hDL w).2 hex]
          exact hnone
      · rcases reach_split (fun x hx => (hDV x).2 hx) hru with hl | hr
        · have hnone : vlookup (delValF fuel s w0) w = none := (hDV w).1 hl
          by_cases hex : ∃ u2 ∈ ws, Reaches (delValF fuel s w0) u2 w
          · exact (hDL w).1 hex
          · push_neg at hex
            rw [(hDL w).2 hex]
            exact hnone
        · exact (hDL w).1 ⟨u, hm, hr⟩
    · intro hall
      have h0 : ¬ Reaches s w0 w := hall w0 (List.mem_cons_self w0 ws)
      have hall1 : ∀ u ∈ ws, ¬ Reaches (delValF fuel s w0) u w := by
        intro u hu hr
        exact hall u (List.mem_cons_of_mem w0 hu) (reaches_mono hnd hsub hr)
      rw [(hDL w).2 hall1, (hDV w).2 h0]
termination_by fuel s ws => (fuel, 1 + ws.length)

end

/-- Claim C4: on a well-formed Values table (primary-key vuids, linkvalue
references pointing to later vuids), deleteValue(v) empties exactly the
rows whose vuid is reachable from v through linkvalue references, v
itself included, and leaves every other row unchanged. -/
theorem claim_C4 (s : ValTable) (v : Nat) (hnd : KeysNodup s) (hinc : Increasing s) :
    ∀ w, (Reaches s v w → vlookup (deleteValue s v) w = none) ∧
         (¬ Reaches s v w → vlookup (deleteValue s v) w = vlookup s w) := by
  have hf : msr s v < s.length + 1 := by
    have := msr_le_length s v
    omega
  exact delValF_spec (s.length + 1) s v hnd hinc hf

theorem claim_C4_witness :
    vlookup (deleteValue
        [(1, ⟨VKind.lnk, [], [], [2]⟩), (2, ⟨VKind.flo, [], [], []⟩),
         (5, ⟨VKind.str, [], [], []⟩)] 1) 2 = none ∧
    vlookup (deleteValue
        [(1, ⟨VKind.lnk, [], [], [2]⟩), (2, ⟨VKind.flo, [], [], []⟩),
         (5, ⟨VKind.str, [], [], []⟩)] 1) 5
      = vlookup [(1, ⟨VKind.lnk, [], [], [2]⟩), (2, ⟨VKind.flo, [], [], []⟩),
         (5, ⟨VKind.str, [], [], []⟩)] 5 := by
  constructor
  · exact (claim_C4 [(1, ⟨VKind.lnk, [], [], [2]⟩), (2, ⟨VKind.flo, [], [], []⟩),
        (5, ⟨VKind.str, [], [], []⟩)] 1 (by unfold KeysNodup; decide) (by unfold Increasing; decide) 2).1
      (Reaches.step ⟨VKind.lnk, [], [], [2]⟩ (by decide) (by decide)
        (List.mem_singleton.mpr rfl) (Reaches.refl 2))
  · refine (claim_C4 [(1, ⟨VKind.lnk, [], [], [2]⟩), (2, ⟨VKind.flo, [], [], []⟩),
        (5, ⟨VKind.str, [], [], []⟩)] 1 (by unfold KeysNodup; decide) (by unfold Increasing; decide) 5).2 ?_
    intro h
    cases h with
    | @step v2 w1 x2 r2 hv2 hk2 hm2 ht2 =>
      have hr2 : r2 = ⟨VKind.lnk, [], [], [2]⟩ := by
        have heval : vlookup [(1, (⟨VKind.lnk, [], [], [2]⟩ : VRow)),
            (2, ⟨VKind.flo, [], [], []⟩), (5, ⟨VKind.str, [], [], []⟩)] 1
            = some ⟨VKind.lnk, [], [], [2]⟩ := by decide
        rw [heval] at hv2
        injection hv2 with h2
        exact h2.symm
      subst hr2
      have hw1 : w1 = 2 := by
        simpa using hm2
      subst hw1
      cases ht2 with
      | @step v3 w3 x3 r3 hv3 hk3 hm3 ht3 =>
        have hr3 : r3 = ⟨VKind.flo, [], [], []⟩ := by
          have heval : vlookup [(1, (⟨VKind.lnk, [], [], [2]⟩ : VRow)),
              (2, ⟨VKind.flo, [], [], []⟩), (5, ⟨VKind.str, [], [], []⟩)] 2
              = some ⟨VKind.flo, [], [], []⟩ := by decide
          rw [heval] at hv3
          injection hv3 with h3
          exact h3.symm
        subst hr3
        cases hk3

/-! Fuel monotonicity of the fetch path: raising the fuel never changes a
successful fetch.  -/

mutual

theorem getValueF_mono : ∀ (f1 f2 : Nat) (s : ValTable) (u : Nat) (x : PValue),
    f1 ≤ f2 → getValueF f1 s u = some x → getValueF f2 s u = some x
  | 0, _, s, u, x, _, h => by
    simp [getValueF] at h
  | f1 + 1, 0, s, u, x, hle, h => absurd hle (by omega)
  | f1 + 1, f2 + 1, s, u, x, hle, h => by
    cases hv : vlookup s u with
    | none => simp [getValueF, hv] at h
    | some r =>
      simp only [getValueF, hv] at h ⊢
      exact decodeRow_mono f1 f2 s r x (by omega) h
termination_by f1 f2 s u x => (f1, 0)

theorem decodeRow_mono : ∀ (f1 f2 : Nat) (s : ValTable) (r : VRow) (x : PValue),
    f1 ≤ f2 → decodeRow f1 s r = some x → decodeRow f2 s r = some x
  | f1, f2, s, r, x, hle, h => by
    cases hk : r.kind with
    | flo =>
      simp only [decodeRow, hk] at h ⊢
      exact h
    | str =>
      simp only [decodeRow, hk] at h ⊢
      exact h
    | lnk =>
      simp only [decodeRow, hk] at h ⊢
      cases hd : decodeList f1 s r.lpay with
      | none =>
        rw [hd] at h
        simp at h
      | some vs =>
        rw [hd] at h
        rw [decodeList_mono f1 f2 s r.lpay vs hle hd]
        exact h
termination_by f1 f2 s r x => (f1, 3 + r.lpay.length)

theorem decodeList_mono : ∀ (f1 f2 : Nat) (s : ValTable) (us : List Nat) (xs : List PValue),
    f1 ≤ f2 → decodeList f1 s us = some xs → decodeList f2 s us = some xs
  | f1, f2, s, [], xs, _, h => by
    simp [decodeList] at h ⊢
    exact h
  | f1, f2, s, u :: us, xs, hle, h => by
    simp only [decodeList] at h ⊢
    cases hg : getValueF f1 s u with
    | none =>
      rw [hg] at h
      simp at h
    | some v =>
      rw [hg] at h
      cases hd : decodeList f1 s us with
      | none =>
        rw [hd] at h
        simp at h
      | some vs =>
        rw [hd] at h
        rw [getValueF_mono f1 f2 s u v hle hg, decodeList_mono f1 f2 s us vs hle hd]
        exact h
termination_by f1 f2 s us xs => (f1, 2 + us.length)

end

/-! Fuel requirements are bounded by node counts.  -/

mutual

theorem needP_lt_nodesP : ∀ v : PValue, needP v < nodesP v
  | PValue.fv _ => by simp [needP, nodesP]
  | PValue.sv _ => by simp [needP, nodesP]
  | PValue.lv vs => by
    have h := needL_le_nodesL vs
    simp only [needP, nodesP]
    omega

theorem needL_le_nodesL : ∀ vs : List PValue, needL vs ≤ nodesL vs
  | [] => by simp [needL, nodesL]
  | v :: vs => by
    have h1 := needP_lt_nodesP v
    have h2 := needL_le_nodesL vs
    simp only [needL, nodesL]
    omega

end

theorem nodesP_pos (v : PValue) : 1 ≤ nodesP v := by
  cases v <;> simp only [nodesP] <;> omega

theorem needP_le_nodesChildren (v : PValue) : needP v ≤ nodesChildren v := by
  cases v with
  | fv ds => simp [needP, nodesChildren]
  | sv ss => simp [needP, nodesChildren]
  | lv vs => simpa [needP, nodesChildren] using needL_le_nodesL vs

/-! The central specification of storeValue / storeValueList: the returned
vuid is the pre-state counter, the counter advances by the node count, all
new rows live in the fresh vuid interval, lookups below the old counter are
unchanged, primary-key uniqueness is preserved, and the stored rows decode
back to the stored value with fuel bounded by the value's need.  -/

mutual

theorem storeValue_spec : ∀ (v : PValue) (st : VState),
    (storeValue v st).1 = st.next ∧
    (storeValue v st).2.next = st.next + nodesP v ∧
    (storeValue v st).2.values.length = st.values.length + nodesP v ∧
    (∀ w, w < st.next → vlookup (storeValue v st).2.values w = vlookup st.values w) ∧
    (∀ p ∈ (storeValue v st).2.values, p ∈ st.values ∨
      (st.next ≤ p.1 ∧ p.1 < (storeValue v st).2.next ∧
        (p.2.kind = VKind.lnk → ∀ w ∈ p.2.lpay,
          p.1 < w ∧ w < (storeValue v st).2.next))) ∧
    (Bounded st → KeysNodup st.values → KeysNodup (storeValue v st).2.values) ∧
    (∀ t2, (∀ w, st.next ≤ w → w < (storeValue v st).2.next →
          vlookup t2 w = vlookup (storeValue v st).2.values w) →
      getValueF (needP v + 1) t2 st.next = some v)
  | PValue.fv ds, st => by
    simp only [storeValue]
    refine ⟨trivial, by simp [nodesP], by simp [nodesP], ?_, ?_, ?_, ?_⟩
    · intro w hw
      rw [vlookup_cons, if_neg (by omega : ¬ st.next = w)]
    · intro p hp
      rcases List.mem_cons.mp hp with rfl | hm
      · refine Or.inr ⟨Nat.le_refl _, by omega, ?_⟩
        intro hk
        simp at hk
      · exact Or.inl hm
    · intro hB0 hN0
      simp only [KeysNodup, List.map_cons, List.nodup_cons]
      refine ⟨?_, hN0⟩
      intro hmem
      obtain ⟨p, hpmem, hpeq⟩ := List.mem_map.mp hmem
      have := hB0 p hpmem
      omega
    · intro t2 ht
      have hl : vlookup t2 st.next = some ⟨VKind.flo, ds, [], []⟩ := by
        rw [ht st.next (Nat.le_refl _) (by omega), vlookup_cons, if_pos rfl]
      simp [getValueF, hl, decodeRow]
  | PValue.sv ss, st => by
    simp only [storeValue]
    refine ⟨trivial, by simp [nodesP], by simp [nodesP], ?_, ?_, ?_, ?_⟩
    · intro w hw
      rw [vlookup_cons, if_neg (by omega : ¬ st.next = w)]
    · intro p hp
      rcases List.mem_cons.mp hp with rfl | hm
      · refine Or.inr ⟨Nat.le_refl _, by omega, ?_⟩
        intro hk
        simp at hk
      · exact Or.inl hm
    · intro hB0 hN0
      simp only [KeysNodup, List.map_cons, List.nodup_cons]
      refine ⟨?_, hN0⟩
      intro hmem
      obtain ⟨p, hpmem, hpeq⟩ := List.mem_map.mp hmem
      have := hB0 p hpmem
      omega
    · intro t2 ht
      have hl : vlookup t2 st.next = some ⟨VKind.str, [], ss, []⟩ := by
        rw [ht st.next (Nat.le_refl _) (by omega), vlookup_cons, if_pos rfl]
      simp [getValueF, hl, decodeRow]
  | PValue.lv vs, st => by
    obtain ⟨hA0, hB0, hC0, hD0, hE0, hF0, hG0, hH0⟩ :=
      storeValueList_spec vs ⟨st.next + 1, st.values⟩
    have hA : (storeValueList vs ⟨st.next + 1, st.values⟩).2.next
        = st.next + 1 + nodesL vs := hA0
    have hB : (storeValueList vs ⟨st.next + 1, st.values⟩).2.values.length
        = st.values.length + nodesL vs := hB0
    have hC : ∀ w, w < st.next + 1 →
        vlookup (storeValueList vs ⟨st.next + 1, st.values⟩).2.values w
          = vlookup st.values w := hC0
    have hD : ∀ p ∈ (storeValueList vs ⟨st.next + 1, st.values⟩).2.values,
        p ∈ st.values ∨
        (st.next + 1 ≤ p.1 ∧
          p.1 < (storeValueList vs ⟨st.next + 1, st.values⟩).2.next ∧
          (p.2.kind = VKind.lnk → ∀ w ∈ p.2.lpay,
            p.1 < w ∧ w < (storeValueList vs ⟨st.next + 1, st.values⟩).2.next)) := hD0
    have hG : ∀ u ∈ (storeValueList vs ⟨st.next + 1, st.values⟩).1,
        st.next + 1 ≤ u ∧ u < (storeValueList vs ⟨st.next + 1, st.values⟩).2.next := hG0
    have hH : ∀ t2, (∀ w, st.next + 1 ≤ w →
          w < (storeValueList vs ⟨st.next + 1, st.values⟩).2.next →
          vlookup t2 w
            = vlookup (storeValueList vs ⟨st.next + 1, st.values⟩).2.values w) →
        decodeList (needL vs) t2 (storeValueList vs ⟨st.next + 1, st.values⟩).1
          = some vs := hH0
    simp only [storeValue]
    refine ⟨trivial, ?_, ?_, ?_, ?_, ?_, ?_⟩
    · simp only [nodesP]
      omega
    · simp only [List.length_cons, nodesP]
      omega
    · intro w hw
      rw [vlookup_cons, if_neg (by omega : ¬ st.next = w)]
      exact hC w (by omega)
    · intro p hp
      rcases List.mem_cons.mp hp with rfl | hm
      · refine Or.inr ⟨Nat.le_refl _, by omega, ?_⟩
        intro _ w hw
        have := hG w hw
        omega
      · rcases hD p hm with hold | ⟨h1, h2, h3⟩
        · exact Or.inl hold
        · exact Or.inr ⟨by omega, h2, h3⟩
    · intro hBd hN0
      simp only [KeysNodup, List.map_cons, List.nodup_cons]
      have hBmid : Bounded ⟨st.next + 1, st.values⟩ := by
        intro p hp
        have := hBd p hp
        omega
      refine ⟨?_, hE0 hBmid hN0⟩
      intro hmem
      obtain ⟨p, hpmem, hpeq⟩ := List.mem_map.mp hmem
      rcases hD p hpmem with hold | ⟨h1, _, _⟩
      · have := hBd p hold
        omega
      · omega
    · intro t2 ht
      have hroot : vlookup t2 st.next
          = some ⟨VKind.lnk, [], [], (storeValueList vs ⟨st.next + 1, st.values⟩).1⟩ := by
        rw [ht st.next (Nat.le_refl _) (by omega), vlookup_cons, if_pos rfl]
      have hlist : decodeList (needL vs) t2
          (storeValueList vs ⟨st.next + 1, st.values⟩).1 = some vs := by
        apply hH t2
        intro w hw1 hw2
        rw [ht w (by omega) hw2, vlookup_cons, if_neg (by omega : ¬ st.next = w)]
      simp [getValueF, needP, hroot, decodeRow, hlist]
termination_by v st => sizeOf v

theorem storeValueList_spec : ∀ (vs : List PValue) (st : VState),
    (storeValueList vs st).2.next = st.next + nodesL vs ∧
    (storeValueList vs st).2.values.length = st.values.length + nodesL vs ∧
    (∀ w, w < st.next → vlookup (storeValueList vs st).2.values w = vlookup st.values w) ∧
    (∀ p ∈ (storeValueList vs st).2.values, p ∈ st.values ∨
      (st.next ≤ p.1 ∧ p.1 < (storeValueList vs st).2.next ∧
        (p.2.kind = VKind.lnk → ∀ w ∈ p.2.lpay,
          p.1 < w ∧ w < (storeValueList vs st).2.next))) ∧
    (Bounded st → KeysNodup st.values → KeysNodup (storeValueList vs st).2.values) ∧
    (storeValueList vs st).1.length = vs.length ∧
    (∀ u ∈ (storeValueList vs st).1, st.next ≤ u ∧ u < (storeValueList vs st).2.next) ∧
    (∀ t2, (∀ w, st.next ≤ w → w < (storeValueList vs st).2.next →
          vlookup t2 w = vlookup (storeValueList vs st).2.values w) →
      decodeList (needL vs) t2 (storeValueList vs st).1 = some vs)
  | [], st => by
    simp only [storeValueList]
    refine ⟨by simp [nodesL], by simp [nodesL], fun w _ => trivial,
      fun p hp => Or.inl hp, fun _ h => h, by simp, ?_, ?_⟩
    · intro u hu
      exact absurd hu (List.not_mem_nil u)
    · intro t2 _
      simp [decodeList]
  | v :: vs, st => by
    obtain ⟨ha, hb, hc, hd, he, hf, hg⟩ := storeValue_spec v st
    obtain ⟨hA, hB, hC, hD, hE, hF, hG, hH⟩ := storeValueList_spec vs (storeValue v st).2
    have hpos := nodesP_pos v
    simp only [storeValueList]
    refine ⟨?_, ?_, ?_, ?_, ?_, ?_, ?_, ?_⟩
    · simp only [nodesL]
      omega
    · simp only [nodesL]
      omega
    · intro w hw
      rw [hC w (by omega), hd w hw]
    · intro p hp
      rcases hD p hp with hmid | ⟨h1, h2, h3⟩
      · rcases he p hmid with hold | ⟨k1, k2, k3⟩
        · exact Or.inl hold
        · refine Or.inr ⟨k1, by omega, ?_⟩
          intro hk w hw
          have := k3 hk w hw
          exact ⟨this.1, by omega⟩
      · exact Or.inr ⟨by omega, h2, h3⟩
    · intro hBd hN0
      apply hE
      · intro p hp
        rcases he p hp with hold | ⟨k1, k2, _⟩
        · have := hBd p hold
          omega
        · exact k2
      · exact hf hBd hN0
    · simp only [List.length_cons, hF]
    · intro u hu
      rcases List.mem_cons.mp hu with rfl | hm
      · constructor <;> omega
      · have := hG u hm
        exact ⟨by omega, this.2⟩
    · intro t2 ht
      have h1 : getValueF (needP v + 1) t2 st.next = some v := by
        apply hg t2
        intro w hw1 hw2
        rw [ht w hw1 (by omega), hC w hw2]
      have h2 : decodeList (needL vs) t2 (storeValueList vs (storeValue v st).2).1
          = some vs := by
        apply hH t2
        intro w hw1 hw2
        exact ht w (by omega) hw2
      have h1m : getValueF (needL (v :: vs)) t2 st.next = some v :=
        getValueF_mono _ _ _ _ _ (by simp only [needL]; omega) h1
      have h2m : decodeList (needL (v :: vs)) t2
          (storeValueList vs (storeValue v st).2).1 = some vs :=
        decodeList_mono _ _ _ _ _ (by simp only [needL]; omega) h2
      simp only [decodeList, ha, h1m, h2m]
termination_by vs st => sizeOf vs

end

/-! Well-formedness is preserved by the store path.  -/

theorem storeValue_WF (v : PValue) (st : VState) (h : WFv st) :
    WFv (storeValue v st).2 := by
  obtain ⟨hB0, hN0, hI0⟩ := h
  obtain ⟨ha, hb, hc, hd, he, hf, hg⟩ := storeValue_spec v st
  refine ⟨?_, hf hB0 hN0, ?_⟩
  · intro p hp
    rcases he p hp with hold | ⟨h1, h2, h3⟩
    · have := hB0 p hold
      have hpos := nodesP_pos v
      omega
    · exact h2
  · intro p hp hk w hw
    rcases he p hp with hold | ⟨h1, h2, h3⟩
    · exact hI0 p hold hk w hw
    · exact (h3 hk w hw).1

theorem storeValueList_WF (vs : List PValue) (st : VState) (h : WFv st) :
    WFv (storeValueList vs st).2 := by
  obtain ⟨hB0, hN0, hI0⟩ := h
  obtain ⟨hA, hB, hC, hD, hE, hF, hG, hH⟩ := storeValueList_spec vs st
  refine ⟨?_, hE hB0 hN0, ?_⟩
  · intro p hp
    rcases hD p hp with hold | ⟨h1, h2, h3⟩
    · have := hB0 p hold
      omega
    · exact h2
  · intro p hp hk w hw
    rcases hD p hp with hold | ⟨h1, h2, h3⟩
    · exact hI0 p hold hk w hw
    · exact (h3 hk w hw).1

/-- Specification of encodeVal, the row composer used by storeValuation:
the counter and length advance by the number of member rows, old lookups
are unchanged, well-formedness is preserved, and decodeRow with the
value's own fuel need recovers the value from the resulting store.  -/
theorem encodeVal_spec (v : PValue) (st : VState) :
    (encodeVal v st).2.next = st.next + nodesChildren v ∧
    (encodeVal v st).2.values.length = st.values.length + nodesChildren v ∧
    (∀ w, w < st.next → vlookup (encodeVal v st).2.values w = vlookup st.values w) ∧
    (WFv st → WFv (encodeVal v st).2) ∧
    decodeRow (needP v) (encodeVal v st).2.values (encodeVal v st).1 = some v := by
  cases v with
  | fv ds =>
    refine ⟨by simp [encodeVal, nodesChildren], by simp [encodeVal, nodesChildren],
      fun w _ => by simp [encodeVal], fun h => by simpa [encodeVal] using h, ?_⟩
    simp [encodeVal, decodeRow]
  | sv ss =>
    refine ⟨by simp [encodeVal, nodesChildren], by simp [encodeVal, nodesChildren],
      fun w _ => by simp [encodeVal], fun h => by simpa [encodeVal] using h, ?_⟩
    simp [encodeVal, decodeRow]
  | lv vs =>
    obtain ⟨hA, hB, hC, hD, hE, hF, hG, hH⟩ := storeValueList_spec vs st
    refine ⟨by simpa [encodeVal, nodesChildren] using hA,
      by simpa [encodeVal, nodesChildren] using hB, ?_, ?_, ?_⟩
    · intro w hw
      simpa [encodeVal] using hC w hw
    · intro h
      simpa [encodeVal] using storeValueList_WF vs st h
    · have hlist := hH (storeValueList vs st).2.values (fun w _ _ => rfl)
      simp [encodeVal, decodeRow, needP, hlist]

/-- Claim C10: storeValue hands out `_next_valid` and advances it, so the
vuid returned is fresh (above every stored row), a second store returns a
strictly larger vuid, well-formedness of the store (including the
children-after-parent discipline of linkvalue rows) is preserved, and the
stored value is recovered by getValue with fuel bounded by the table
length, witnessing termination of the recursive fetch.  -/
theorem claim_C10 (v : PValue) (st : VState) (h : WFv st) :
    (storeValue v st).1 = st.next ∧
    st.next < (storeValue v st).2.next ∧
    (∀ p ∈ st.values, p.1 < (storeValue v st).1) ∧
    (∀ v2, (storeValue v st).1 < (storeValue v2 (storeValue v st).2).1) ∧
    WFv (storeValue v st).2 ∧
    getValueF ((storeValue v st).2.values.length + 1)
      (storeValue v st).2.values (storeValue v st).1 = some v := by
  obtain ⟨ha, hb, hc, hd, he, hf, hg⟩ := storeValue_spec v st
  have hpos := nodesP_pos v
  refine ⟨ha, by omega, ?_, ?_, storeValue_WF v st h, ?_⟩
  · intro p hp
    have := h.1 p hp
    omega
  · intro v2
    have h2 := (storeValue_spec v2 (storeValue v st).2).1
    omega
  · have hbase := hg (storeValue v st).2.values (fun w _ _ => rfl)
    have hneed := needP_lt_nodesP v
    have hm := getValueF_mono (needP v + 1) ((storeValue v st).2.values.length + 1)
      (storeValue v st).2.values st.next v (by omega) hbase
    rw [ha]
    exact hm

theorem claim_C10_witness :
    (storeValue (PValue.fv []) ⟨0, []⟩).1 = (⟨0, []⟩ : VState).next ∧
    (⟨0, []⟩ : VState).next < (storeValue (PValue.fv []) ⟨0, []⟩).2.next ∧
    (∀ p ∈ (⟨0, []⟩ : VState).values, p.1 < (storeValue (PValue.fv []) ⟨0, []⟩).1) ∧
    (∀ v2, (storeValue (PValue.fv []) ⟨0, []⟩).1 <
      (storeValue v2 (storeValue (PValue.fv []) ⟨0, []⟩).2).1) ∧
    WFv (storeValue (PValue.fv []) ⟨0, []⟩).2 ∧
    getValueF ((storeValue (PValue.fv []) ⟨0, []⟩).2.values.length + 1)
      (storeValue (PValue.fv []) ⟨0, []⟩).2.values (storeValue (PValue.fv []) ⟨0, []⟩).1
      = some (PValue.fv []) :=
  claim_C10 (PValue.fv []) ⟨0, []⟩
    (by unfold WFv Bounded KeysNodup Increasing; decide)

/-! The valuation layer: shapes of the states and traces produced by
storeValuation / deleteValuation.  -/

theorem delListTop_sublist : ∀ (ws : List Nat) (s : ValTable),
    List.Sublist (delListTop s ws) s
  | [], s => List.Sublist.refl s
  | w :: ws, s =>
    (delListTop_sublist ws (deleteValue s w)).trans (delValF_sublist (s.length + 1) s w)

theorem WFv_sublist {next : Nat} {s2 s : ValTable} (hsub : List.Sublist s2 s)
    (h : WFv ⟨next, s⟩) : WFv ⟨next, s2⟩ :=
  ⟨fun p hp => h.1 p (hsub.subset hp), keysNodup_sublist hsub h.2.1,
    increasing_sublist hsub h.2.2⟩

theorem findValuation_none_not_mem : ∀ {q : List ((Nat × Nat) × VRow)} {k a : Nat},
    findValuation q k a = none → ∀ p ∈ q, p.1 ≠ (k, a)
  | [], k, a, _, p, hp => absurd hp (List.not_mem_nil p)
  | p0 :: rest, k, a, h, p, hp => by
    rw [findValuation] at h
    by_cases h0 : p0.1 = (k, a)
    · rw [if_pos h0] at h
      simp at h
    · rw [if_neg h0] at h
      rcases List.mem_cons.mp hp with rfl | hm
      · exact h0
      · exact findValuation_none_not_mem h p hm

theorem findValuation_cons_self (k a : Nat) (r : VRow) (rest : List ((Nat × Nat) × VRow)) :
    findValuation (((k, a), r) :: rest) k a = some r := by
  rw [findValuation, if_pos rfl]

/-- Every pair key in the Valuations table left by deleteValuation differs
from the deleted pair.  -/
theorem deleteValuationT_clean (db : DBState) (k a : Nat) :
    ∀ p ∈ (deleteValuationT db k a).1.valns, p.1 ≠ (k, a) := by
  intro p hp
  cases hf : findValuation db.valns k a with
  | none =>
    simp only [deleteValuationT, hf] at hp
    exact findValuation_none_not_mem hf p hp
  | some r =>
    simp only [deleteValuationT, hf] at hp
    simpa using (List.mem_filter.mp hp).2

theorem filter_pair_of_clean {q : List ((Nat × Nat) × VRow)} {k a : Nat}
    (h : ∀ p ∈ q, p.1 ≠ (k, a)) :
    q.filter (fun p => decide (p.1 = (k, a))) = [] := by
  rw [List.filter_eq_nil_iff]
  intro p hp
  simpa using h p hp

theorem deleteValuationT_values_sublist (db : DBState) (k a : Nat) :
    List.Sublist (deleteValuationT db k a).1.values db.values := by
  cases hf : findValuation db.valns k a with
  | none =>
    simp only [deleteValuationT, hf]
    exact List.Sublist.refl _
  | some r =>
    simp only [deleteValuationT, hf]
    by_cases hk : r.kind = VKind.lnk
    · rw [if_pos hk]
      exact delListTop_sublist r.lpay db.values
    · rw [if_neg hk]

theorem deleteValuationT_next (db : DBState) (k a : Nat) :
    (deleteValuationT db k a).1.next = db.next := by
  cases hf : findValuation db.valns k a with
  | none => simp only [deleteValuationT, hf]
  | some r => simp only [deleteValuationT, hf]

theorem deleteValuationT_found_valns {db : DBState} {k a : Nat} {r : VRow}
    (hf : findValuation db.valns k a = some r) :
    (deleteValuationT db k a).1.valns = db.valns.filter (fun p => p.1 ≠ (k, a)) := by
  simp only [deleteValuationT, hf]

theorem deleteValuationT_found_trace {db : DBState} {k a : Nat} {r : VRow}
    (hf : findValuation db.valns k a = some r) :
    (deleteValuationT db k a).2 =
      [VStmt.selectPair]
        ++ (if r.kind = VKind.lnk then r.lpay.map (fun _ => VStmt.deleteValues) else [])
        ++ [VStmt.deletePair] := by
  simp only [deleteValuationT, hf]

theorem deleteValuationT_no_insert (db : DBState) (k a : Nat) :
    VStmt.insertPair ∉ (deleteValuationT db k a).2 := by
  cases hf : findValuation db.valns k a with
  | none => simp [deleteValuationT, hf]
  | some r =>
    simp only [deleteValuationT, hf]
    intro hmem
    rcases List.mem_append.mp hmem with hmem1 | hmem2
    · rcases List.mem_append.mp hmem1 with hmem3 | hmem4
      · simp at hmem3
      · by_cases hk : r.kind = VKind.lnk
        · rw [if_pos hk] at hmem4
          obtain ⟨_, _, habs⟩ := List.mem_map.mp hmem4
          simp at habs
        · rw [if_neg hk] at hmem4
          simp at hmem4
    · simp at hmem2

theorem storeValuationT_trace (k a : Nat) (v : PValue) (db : DBState) :
    (storeValuationT k a v db).2 =
      [VStmt.begin] ++ (deleteValuationT db k a).2
        ++ [VStmt.insertPair, VStmt.commit] := rfl

theorem storeValuation_valns_shape (k a : Nat) (v : PValue) (db : DBState) :
    (storeValuation k a v db).valns =
      ((k, a), (encodeVal v ⟨(deleteValuationT db k a).1.next,
          (deleteValuationT db k a).1.values⟩).1)
        :: (deleteValuationT db k a).1.valns := rfl

theorem storeValuation_values_shape (k a : Nat) (v : PValue) (db : DBState) :
    (storeValuation k a v db).values =
      (encodeVal v ⟨(deleteValuationT db k a).1.next,
          (deleteValuationT db k a).1.values⟩).2.values := rfl

theorem storeValuation_next_shape (k a : Nat) (v : PValue) (db : DBState) :
    (storeValuation k a v db).next =
      (encodeVal v ⟨(deleteValuationT db k a).1.next,
          (deleteValuationT db k a).1.values⟩).2.next := rfl

theorem count_map_const {α : Type} (l : List α) (c : VStmt) :
    (l.map (fun _ => c)).count c = l.length := by
  induction l with
  | nil => rfl
  | cons x xs ih => simp [List.count_cons, ih]

/-- The trace of every storeValuation call starts with BEGIN, ends with
COMMIT, and contains exactly one INSERT of the pair row.  -/
theorem storeValuationT_trace_shape (k a : Nat) (v : PValue) (db : DBState) :
    (storeValuationT k a v db).2.head? = some VStmt.begin ∧
    (storeValuationT k a v db).2.getLast? = some VStmt.commit ∧
    (storeValuationT k a v db).2.count VStmt.insertPair = 1 := by
  refine ⟨?_, ?_, ?_⟩
  · rw [storeValuationT_trace]
    rfl
  · rw [storeValuationT_trace]
    have hre : [VStmt.begin] ++ (deleteValuationT db k a).2
        ++ [VStmt.insertPair, VStmt.commit]
      = ([VStmt.begin] ++ (deleteValuationT db k a).2 ++ [VStmt.insertPair])
        ++ [VStmt.commit] := by
      simp
    rw [hre, List.getLast?_concat]
  · rw [storeValuationT_trace, List.count_append, List.count_append]
    have h0 : (deleteValuationT db k a).2.count VStmt.insertPair = 0 :=
      List.count_eq_zero.mpr (deleteValuationT_no_insert db k a)
    rw [h0]
    decide

theorem WFdb_storeValuation {db : DBState} (h : WFdb db) (k a : Nat) (v : PValue) :
    WFdb (storeValuation k a v db) := by
  have hdel : WFv ⟨(deleteValuationT db k a).1.next, (deleteValuationT db k a).1.values⟩ := by
    rw [deleteValuationT_next]
    exact WFv_sublist (deleteValuationT_values_sublist db k a) h
  have henc := (encodeVal_spec v ⟨(deleteValuationT db k a).1.next,
      (deleteValuationT db k a).1.values⟩).2.2.2.1 hdel
  rw [WFdb]
  rw [storeValuation_next_shape, storeValuation_values_shape]
  exact henc

/-! The faithful fetch equals the payload-transparent fetch followed by
the leaf codec.  -/

mutual

theorem doUnpackValueF_eq : ∀ (fuel : Nat) (s : ValTable) (r : VRow),
    doUnpackValueF fuel s r = (decodeRow fuel s r).map roundP
  | fuel, s, r => by
    cases hk : r.kind with
    | flo => simp [doUnpackValueF, decodeRow, hk, roundP]
    | str => simp [doUnpackValueF, decodeRow, hk, roundP]
    | lnk =>
      simp only [doUnpackValueF, decodeRow, hk]
      rw [doUnpackListF_eq fuel s r.lpay]
      cases hd : decodeList fuel s r.lpay with
      | none => simp
      | some vs => simp [roundP]
termination_by fuel s r => (fuel, 3 + r.lpay.length)

theorem doUnpackListF_eq : ∀ (fuel : Nat) (s : ValTable) (us : List Nat),
    doUnpackListF fuel s us = (decodeList fuel s us).map roundL
  | fuel, s, [] => by simp [doUnpackListF, decodeList, roundL]
  | fuel, s, u :: us => by
    simp only [doUnpackListF, decodeList]
    rw [fetchValueF_eq fuel s u, doUnpackListF_eq fuel s us]
    cases hg : getValueF fuel s u with
    | none => simp
    | some v =>
      cases hd : decodeList fuel s us with
      | none => simp
      | some vs => simp [roundL]
termination_by fuel s us => (fuel, 2 + us.length)

theorem fetchValueF_eq : ∀ (fuel : Nat) (s : ValTable) (u : Nat),
    fetchValueF fuel s u = (getValueF fuel s u).map roundP
  | 0, s, u => by simp [fetchValueF, getValueF]
  | fuel + 1, s, u => by
    simp only [fetchValueF, getValueF]
    cases hv : vlookup s u with
    | none => simp
    | some r => simpa using doUnpackValueF_eq fuel s r
termination_by fuel s u => (fuel, 0)

end

/-- After two stores on the same pair, the fetch returns the codec image
of the second value: the structural row decodes to v2 and the text
re-parse applies roundP to it.  -/
theorem storeValuation_fetch_round (k a : Nat) (v1 v2 : PValue) (db : DBState) :
    getValuation k a (storeValuation k a v2 (storeValuation k a v1 db))
      = some (roundP v2) := by
  have hfind2 : findValuation
      (storeValuation k a v2 (storeValuation k a v1 db)).valns k a
      = some (encodeVal v2
          ⟨(deleteValuationT (storeValuation k a v1 db) k a).1.next,
            (deleteValuationT (storeValuation k a v1 db) k a).1.values⟩).1 := by
    rw [storeValuation_valns_shape]
    exact findValuation_cons_self k a _ _
  simp only [getValuation, hfind2]
  rw [doUnpackValueF_eq]
  obtain ⟨hA, hB, hC, hW, hdec⟩ :=
    encodeVal_spec v2 ⟨(deleteValuationT (storeValuation k a v1 db) k a).1.next,
      (deleteValuationT (storeValuation k a v1 db) k a).1.values⟩
  have hB2 : (storeValuation k a v2 (storeValuation k a v1 db)).values.length
      = (deleteValuationT (storeValuation k a v1 db) k a).1.values.length
        + nodesChildren v2 := hB
  have hdec2 : decodeRow (needP v2)
      (storeValuation k a v2 (storeValuation k a v1 db)).values
      (encodeVal v2 ⟨(deleteValuationT (storeValuation k a v1 db) k a).1.next,
        (deleteValuationT (storeValuation k a v1 db) k a).1.values⟩).1
      = some v2 := hdec
  have hn := needP_le_nodesChildren v2
  rw [decodeRow_mono (needP v2)
      ((storeValuation k a v2 (storeValuation k a v1 db)).values.length + 1)
      (storeValuation k a v2 (storeValuation k a v1 db)).values _ v2 (by omega) hdec2]
  rfl

/-- Claim C3 (counterexample): with v2 the StringValue whose single
element contains a comma, getValuation after the two stores returns the
two-element vector, not v2: the unquoted rendering is split at the comma
on the way back, so the claimed round trip fails.  -/
theorem claim_C3_counterexample :
    getValuation 1 2 (storeValuation 1 2 (PValue.sv ["a,b"])
        (storeValuation 1 2 (PValue.fv []) ⟨0, [], []⟩))
      = some (PValue.sv ["a", "b"]) ∧
    ¬ getValuation 1 2 (storeValuation 1 2 (PValue.sv ["a,b"])
        (storeValuation 1 2 (PValue.fv []) ⟨0, [], []⟩))
      = some (PValue.sv ["a,b"]) := by
  have hs : doUnpackString (sqlContent (string_to_string ["a,b"])) = ["a", "b"] := by
    decide
  have hround : roundP (PValue.sv ["a,b"]) = PValue.sv ["a", "b"] := by
    simp [roundP, hs]
  have h := storeValuation_fetch_round 1 2 (PValue.fv []) (PValue.sv ["a,b"]) ⟨0, [], []⟩
  rw [hround] at h
  refine ⟨h, ?_⟩
  rw [h]
  intro he
  injection he with h2
  exact absurd h2 (by decide)

/-- Claim C3 (amended): after storeValuation(k,a,v1) then
storeValuation(k,a,v2), getValuation(k,a) returns not v2 itself but its
codec image roundP v2 (float leaves rounded to six fractional digits,
string leaves re-parsed from their unquoted rendering, linkvalue
structure preserved) — and hence v2 exactly when v2 survives the codec;
the Valuations table holds exactly one row for the pair; each call's
statement trace begins with BEGIN, ends with COMMIT and contains exactly
one pair INSERT; the second call deletes the existing pair row, and when
the overwritten value was a LinkValue the deletion cascades one Values
delete per member.  -/
theorem claim_C3_amended (k a : Nat) (v1 v2 : PValue) (db : DBState) (h : WFdb db) :
    getValuation k a (storeValuation k a v2 (storeValuation k a v1 db))
      = some (roundP v2) ∧
    (roundP v2 = v2 →
      getValuation k a (storeValuation k a v2 (storeValuation k a v1 db))
        = some v2) ∧
    ((storeValuation k a v2 (storeValuation k a v1 db)).valns.filter
        (fun p => decide (p.1 = (k, a)))).length = 1 ∧
    ((storeValuationT k a v1 db).2.head? = some VStmt.begin ∧
      (storeValuationT k a v1 db).2.getLast? = some VStmt.commit ∧
      (storeValuationT k a v1 db).2.count VStmt.insertPair = 1) ∧
    ((storeValuationT k a v2 (storeValuation k a v1 db)).2.head? = some VStmt.begin ∧
      (storeValuationT k a v2 (storeValuation k a v1 db)).2.getLast? = some VStmt.commit ∧
      (storeValuationT k a v2 (storeValuation k a v1 db)).2.count VStmt.insertPair = 1) ∧
    VStmt.deletePair ∈ (storeValuationT k a v2 (storeValuation k a v1 db)).2 ∧
    (∀ vs, v1 = PValue.lv vs →
      (storeValuationT k a v2 (storeValuation k a v1 db)).2.count VStmt.deleteValues
        = vs.length) := by
  have hfind1 : findValuation (storeValuation k a v1 db).valns k a
      = some (encodeVal v1 ⟨(deleteValuationT db k a).1.next,
          (deleteValuationT db k a).1.values⟩).1 := by
    rw [storeValuation_valns_shape]
    exact findValuation_cons_self k a _ _
  refine ⟨storeValuation_fetch_round k a v1 v2 db, ?_, ?_,
    storeValuationT_trace_shape k a v1 db,
    storeValuationT_trace_shape k a v2 (storeValuation k a v1 db), ?_, ?_⟩
  · intro hr
    rw [storeValuation_fetch_round k a v1 v2 db, hr]
  · rw [storeValuation_valns_shape, List.filter_cons, if_pos (by simp),
      filter_pair_of_clean (deleteValuationT_clean (storeValuation k a v1 db) k a)]
    rfl
  · rw [storeValuationT_trace]
    refine List.mem_append.mpr (Or.inl ?_)
    refine List.mem_append.mpr (Or.inr ?_)
    rw [deleteValuationT_found_trace hfind1]
    exact List.mem_append.mpr (Or.inr (by simp))
  · intro vs hv1
    subst hv1
    have hkind : (encodeVal (PValue.lv vs) ⟨(deleteValuationT db k a).1.next,
        (deleteValuationT db k a).1.values⟩).1.kind = VKind.lnk := rfl
    have hlpay : (encodeVal (PValue.lv vs) ⟨(deleteValuationT db k a).1.next,
        (deleteValuationT db k a).1.values⟩).1.lpay
        = (storeValueList vs ⟨(deleteValuationT db k a).1.next,
            (deleteValuationT db k a).1.values⟩).1 := rfl
    rw [storeValuationT_trace, deleteValuationT_found_trace hfind1, if_pos hkind, hlpay]
    simp only [List.count_append]
    rw [count_map_const]
    have hlen := (storeValueList_spec vs ⟨(deleteValuationT db k a).1.next,
        (deleteValuationT db k a).1.values⟩).2.2.2.2.2.1
    rw [hlen]
    have c1 : [VStmt.begin].count VStmt.deleteValues = 0 := by decide
    have c2 : [VStmt.selectPair].count VStmt.deleteValues = 0 := by decide
    have c3 : [VStmt.deletePair].count VStmt.deleteValues = 0 := by decide
    have c4 : [VStmt.insertPair, VStmt.commit].count VStmt.deleteValues = 0 := by decide
    omega

theorem claim_C3_amended_witness :
    getValuation 1 2 (storeValuation 1 2 (PValue.sv []) (storeValuation 1 2 (PValue.lv [PValue.sv []]) (⟨0, [], []⟩ : DBState)))
      = some (roundP (PValue.sv [])) ∧
    (roundP (PValue.sv []) = (PValue.sv []) →
      getValuation 1 2 (storeValuation 1 2 (PValue.sv []) (storeValuation 1 2 (PValue.lv [PValue.sv []]) (⟨0, [], []⟩ : DBState)))
        = some (PValue.sv [])) ∧
    ((storeValuation 1 2 (PValue.sv []) (storeValuation 1 2 (PValue.lv [PValue.sv []]) (⟨0, [], []⟩ : DBState))).valns.filter
        (fun p => decide (p.1 = (1, 2)))).length = 1 ∧
    ((storeValuationT 1 2 (PValue.lv [PValue.sv []]) (⟨0, [], []⟩ : DBState)).2.head? = some VStmt.begin ∧
      (storeValuationT 1 2 (PValue.lv [PValue.sv []]) (⟨0, [], []⟩ : DBState)).2.getLast? = some VStmt.commit ∧
      (storeValuationT 1 2 (PValue.lv [PValue.sv []]) (⟨0, [], []⟩ : DBState)).2.count VStmt.insertPair = 1) ∧
    ((storeValuationT 1 2 (PValue.sv []) (storeValuation 1 2 (PValue.lv [PValue.sv []]) (⟨0, [], []⟩ : DBState))).2.head? = some VStmt.begin ∧
      (storeValuationT 1 2 (PValue.sv []) (storeValuation 1 2 (PValue.lv [PValue.sv []]) (⟨0, [], []⟩ : DBState))).2.getLast? = some VStmt.commit ∧
      (storeValuationT 1 2 (PValue.sv []) (storeValuation 1 2 (PValue.lv [PValue.sv []]) (⟨0, [], []⟩ : DBState))).2.count VStmt.insertPair = 1) ∧
    VStmt.deletePair ∈ (storeValuationT 1 2 (PValue.sv []) (storeValuation 1 2 (PValue.lv [PValue.sv []]) (⟨0, [], []⟩ : DBState))).2 ∧
    (∀ vs, (PValue.lv [PValue.sv []]) = PValue.lv vs →
      (storeValuationT 1 2 (PValue.sv []) (storeValuation 1 2 (PValue.lv [PValue.sv []]) (⟨0, [], []⟩ : DBState))).2.count VStmt.deleteValues
        = vs.length) :=
  claim_C3_amended 1 2 (PValue.lv [PValue.sv []]) (PValue.sv []) ⟨0, [], []⟩
    (by unfold WFdb WFv Bounded KeysNodup Increasing; decide)

end AtomStorage

